import Mathlib

/-!
Verification of data-model properties of the TortoiseHg GUI layer
(repository registry tree, status model, custom-tool/hook configuration,
ignore-file editing, and the single-instance IPC handshake).

Each Python function under scrutiny is shallow-embedded as an executable
Lean definition; theorems relate those definitions.  Byte strings are
modelled as Lean `String`s except where raw bytes matter (they are then
`List Nat` with entries below 256).
-/

/-! ### Python string helpers -/

/-- The ASCII whitespace characters stripped by Python `str.strip()` and
matched by the regex class `\s` (unicode space characters are not
modelled; all inputs considered here are ASCII). -/
def pyWhitespaceChars : List Char := [' ', '\t', '\n', '\r', '\x0b', '\x0c']

/-- Python `c.isspace()` restricted to ASCII. -/
def isPySpace (c : Char) : Bool := pyWhitespaceChars.contains c

/-- Python `str.strip()`: drop leading and trailing whitespace. -/
def pyStrip (s : String) : String :=
  ⟨((s.toList.dropWhile isPySpace).reverse.dropWhile isPySpace).reverse⟩

/-! ### customtools.py: `validateForm` of the two configuration dialogs

`CustomToolConfigDialog.value` strips the tool name but not the command;
`HookConfigDialog.value` strips both the hook name and the command.  The
hook-name check is the regex `^[^=\s]*$`. -/

/-- Texts held by the two line edits of `CustomToolConfigDialog` that
`validateForm` looks at. -/
structure ToolForm where
  nameText : String
  commandText : String
deriving DecidableEq

/-- `CustomToolConfigDialog.validateForm` (via `value`, which strips the
name).  Returns the error message, `""` meaning no error. -/
def toolValidateForm (f : ToolForm) : String :=
  let name := pyStrip f.nameText
  if name = "" then "You must set a tool name."
  else if name.toList.contains ' ' then
    "The tool name cannot have any spaces in it."
  else if f.commandText = "" then "You must set a command to run."
  else ""

/-- The fixed list `HookConfigDialog._hooktypes`. -/
def hooktypes : List String :=
  ["changegroup", "commit", "incoming", "outgoing", "prechangegroup",
   "precommit", "prelistkeys", "preoutgoing", "prepushkey", "pretag",
   "pretxnchangegroup", "pretxncommit", "preupdate", "listkeys",
   "pushkey", "tag", "update"]

/-- The regex `^[^=\s]*$` used on the (stripped) hook name: every
character is neither `=` nor whitespace. -/
def hookNameOk (s : String) : Bool :=
  s.toList.all (fun c => c ≠ '=' && !isPySpace c)

/-- Texts held by the widgets of `HookConfigDialog` that `validateForm`
looks at. -/
structure HookForm where
  hooktypeText : String
  nameText : String
  commandText : String
deriving DecidableEq

/-- `HookConfigDialog.validateForm` (via `value`, which strips both the
hook name and the command). -/
def hookValidateForm (f : HookForm) : String :=
  let hookname := pyStrip f.nameText
  let command := pyStrip f.commandText
  if ¬ hooktypes.contains f.hooktypeText then
    "You must set a valid hook type."
  else if ¬ hookNameOk hookname then
    "The hook name cannot contain any spaces, tabs or = characters."
  else if command = "" then "You must set a command to run."
  else ""

/-! ### qtapp.py: single-instance IPC handshake -/

/-- The payload assembled by `connectToExistingWorkbench`: the root path,
or `root \0 revset` when a (non-empty) revset is given; `if revset:` is
false for an empty byte string. -/
def connectData (root : List Nat) (revset : Option (List Nat)) : List Nat :=
  match revset with
  | some rs => if rs.isEmpty then root else root ++ 0 :: rs
  | none => root

/-- Result of `connectToExistingWorkbench`: `True` exactly when the
socket connected and the reply read back equals the data sent; every
other path (no connection, mismatched echo) returns `False`. -/
def connectToExistingWorkbench (root : List Nat) (revset : Option (List Nat))
    (connected : Bool) (reply : List Nat) : Bool :=
  connected && (connectData root revset == reply)

/-- `QtRunner._handleNewConnection` always writes the received bytes back
to the socket unchanged (the `[echo]` probe and ordinary requests alike). -/
def serverReply (data : List Nat) : List Nat := data

/-! ### repotreeitem.py: `RepoTreeItem.removeRows` -/

/-- The per-child mutable fields touched by `removeRows`: an identity tag
(standing for Python object identity), the `_row` cache and the `_parent`
pointer (the parent's identity, if any). -/
structure RItemRef where
  ident : Nat
  rowFld : Nat
  parentFld : Option Nat
deriving DecidableEq

/-- `RepoTreeItem.removeRows(row, count)` acting on the child list `cs`:
returns the new child list (`cs[:row] + cs[row+count:]`, renumbered), the
detached children (`cs[row:row+count]` with `_row = 0`, `_parent = None`)
and the boolean result. -/
def removeRows (cs : List RItemRef) (row count : Nat) :
    List RItemRef × List RItemRef × Bool :=
  let remove := (cs.drop row).take count
  let keep := cs.take row ++ cs.drop (row + count)
  let removed := remove.map fun c => { c with rowFld := 0, parentFld := none }
  let kept := keep.enum.map fun ic => { ic.2 with rowFld := ic.1 }
  (kept, removed, true)

/-! ### hgignore.py: ignore-file editing -/

/-- `line.startswith(b'syntax:')` — the test `insertFilters` uses to find
the end of a syntax section. -/
def isSyntaxHeaderLine (l : String) : Bool :=
  "syntax:".data.isPrefixOf l.data

/-- The header chosen by `insertFilters`:
`isregexp and b'syntax: regexp' or b'syntax: glob'`. -/
def headerFor (isregexp : Bool) : String :=
  if isregexp then "syntax: regexp" else "syntax: glob"

/-- Repeated `list.insert(i, pat)` at the same index `i` (so a
multi-element `pats` ends up reversed at that position, as in Python). -/
def insertAllAt (xs : List String) (i : Nat) (pats : List String) :
    List String :=
  pats.foldl (fun acc pat => List.insertIdx i pat acc) xs

/-- `HgignoreDialog.insertFilters` acting on `self.ignorelines`: if the
header is present, insert the patterns just before the next `syntax:`
line (or extend at the end when there is none); otherwise append the
header and then the patterns. -/
def insertFilters (ignorelines pats : List String) (isregexp : Bool) :
    List String :=
  match ignorelines.indexOf? (headerFor isregexp) with
  | some l =>
    match (ignorelines.drop (l + 1)).findIdx?
        (fun line => isSyntaxHeaderLine line) with
    | some i => insertAllAt ignorelines (l + i + 1) pats
    | none => ignorelines ++ pats
  | none => (ignorelines ++ [headerFor isregexp]) ++ pats

/-- The two pattern syntaxes the dialog writes. -/
inductive PatKind where
  | regexp
  | glob
deriving DecidableEq

/-- The syntax selected by `insertFilters`' boolean flag. -/
def patKindOf (isregexp : Bool) : PatKind :=
  if isregexp then PatKind.regexp else PatKind.glob

/-- Modelled from the spec: the syntax a `syntax:` header line selects
for the lines after it (the dialog only ever writes the two exact
headers; any other `syntax:` line selects an unknown syntax, `none`). -/
def headerKind (l : String) : Option PatKind :=
  if l = "syntax: regexp" then some PatKind.regexp
  else if l = "syntax: glob" then some PatKind.glob
  else none

/-- Modelled from the spec: effective matching of an ignore file is
determined by the list of (governing syntax, pattern line) pairs, each
non-header line being governed by the nearest preceding `syntax:` header
(Mercurial's default before the first header is `regexp`). -/
def effectivePairs : List String → Option PatKind →
    List (Option PatKind × String)
  | [], _ => []
  | l :: ls, cur =>
    if isSyntaxHeaderLine l then effectivePairs ls (headerKind l)
    else (cur, l) :: effectivePairs ls cur

/-- The syntax in force after reading the given lines. -/
def kindAfter : List String → Option PatKind → Option PatKind
  | [], cur => cur
  | l :: ls, cur =>
    if isSyntaxHeaderLine l then kindAfter ls (headerKind l)
    else kindAfter ls cur

/-- `HgignoreDialog.refresh`: the CRLF flag is read off the first line of
the file; on empty or unreadable files (`IndexError`/`OSError`) it falls
back to the platform default `os.name == 'nt'`. -/
def refreshDoseoln (content : Option (List String)) (isWindows : Bool) :
    Bool :=
  match content with
  | some (l0 :: _) => ("\r\n".data.isSuffixOf l0.data)
  | some [] => isWindows
  | none => isWindows

/-- Python `bytes.join`. -/
def pyJoin (sep : String) : List String → String
  | [] => ""
  | [x] => x
  | x :: y :: xs => x ++ sep ++ pyJoin sep (y :: xs)

/-- `HgignoreDialog.writeIgnoreFile`: `eol.join(ignorelines) + eol` with
`eol` chosen by the `doseoln` flag. -/
def writeIgnoreFile (doseoln : Bool) (ignorelines : List String) : String :=
  let eol := if doseoln then "\r\n" else "\n"
  pyJoin eol ignorelines ++ eol

/-- Python `fp.readlines()`: split after each newline, keeping the line
endings; a trailing segment without a newline is kept too. -/
def pyReadlinesAux : List Char → List Char → List (List Char)
  | [], acc => if acc.isEmpty then [] else [acc.reverse]
  | c :: cs, acc =>
    if c = '\n' then (c :: acc).reverse :: pyReadlinesAux cs []
    else pyReadlinesAux cs (c :: acc)

/-- Python `fp.readlines()` on a whole file. -/
def pyReadlines (s : String) : List String :=
  (pyReadlinesAux s.data []).map fun l => ⟨l⟩

/-! ### repotreeitem.py: the registry tree and virtual paths

A node of the repository-registry forest.  The constructor mirrors the
Python class of the item; `RepoItem` and its two Mercurial-subrepo
subclasses carry `_root`, `_shortname`, `_sharedpath` and `_basenode`
(raw bytes, entries < 256); `AlienSubrepoItem` carries `_root` and
`_repotype`; group items carry `name`. -/
inductive RNode where
  | treeitem (childs : List RNode)
  | repo (root shortname sharedpath : String) (basenode : List Nat)
      (childs : List RNode)
  | standalonesub (root shortname sharedpath : String) (basenode : List Nat)
      (childs : List RNode)
  | subrepo (root shortname sharedpath : String) (basenode : List Nat)
      (childs : List RNode)
  | aliensub (root repotype : String) (childs : List RNode)
  | group (name : String) (childs : List RNode)
  | allgroup (name : String) (childs : List RNode)

/-- `item.childs`. -/
def childsOf : RNode → List RNode
  | .treeitem cs => cs
  | .repo _ _ _ _ cs => cs
  | .standalonesub _ _ _ _ cs => cs
  | .subrepo _ _ _ _ cs => cs
  | .aliensub _ _ cs => cs
  | .group _ cs => cs
  | .allgroup _ cs => cs

/-- `os.path.basename` (POSIX form, as used on the repo root path): the
part after the last `/`. -/
def pyBasename (s : String) : String :=
  ⟨(s.data.reverse.takeWhile (fun c => c ≠ '/')).reverse⟩

/-- `item.shortname()`: groups return their name, repo-like items return
`_shortname` or, when it is empty, the basename of the root; the base
`RepoTreeItem` returns the empty string. -/
def shortnameOf : RNode → String
  | .treeitem _ => ""
  | .repo root sn _ _ _ => if sn = "" then pyBasename root else sn
  | .standalonesub root sn _ _ _ => if sn = "" then pyBasename root else sn
  | .subrepo root sn _ _ _ => if sn = "" then pyBasename root else sn
  | .aliensub root _ _ => pyBasename root
  | .group n _ => n
  | .allgroup n _ => n

/-- `_quotename` on a single character: `%`, `/` and `#` become `%25`,
`%2F` and `%23` (uppercase hex, as `'%%%02X' % ord`). -/
def quoteChar (c : Char) : List Char :=
  if c = '%' then ['%', '2', '5']
  else if c = '/' then ['%', '2', 'F']
  else if c = '#' then ['%', '2', '3']
  else [c]

/-- `_quotename`. -/
def quotename (s : String) : String := ⟨s.data.flatMap quoteChar⟩

/-- Membership in `_buildquotenamemap(...)[q]`: the sibling's quoted
shortname equals `q`. -/
def hasQName (q : String) (c : RNode) : Bool :=
  quotename (shortnameOf c) == q

/-- `_buildquotenamemap(cs)[q]`: the same-named siblings in order (the
Python dict is insertion-ordered, so the bucket lists siblings in child
order). -/
def sameNamed (cs : List RNode) (q : String) : List RNode :=
  cs.filter (hasQName q)

/-- Decimal digits of `n`, most significant first (`'%d' % n`), with
explicit fuel so that the definition reduces in the kernel. -/
def natDigitsAux : Nat → Nat → List Char
  | 0, _ => []
  | fuel + 1, n =>
    if n < 10 then [Char.ofNat ('0'.toNat + n)]
    else natDigitsAux fuel (n / 10) ++ [Char.ofNat ('0'.toNat + n % 10)]

/-- `'%d' % n`. -/
def natToDecimal (n : Nat) : String := ⟨natDigitsAux (n + 1) n⟩

/-- An item of the forest is addressed by its access path: the child
indices from the root down to it. -/
def subtreeAt? : RNode → List Nat → Option RNode
  | t, [] => some t
  | t, i :: is =>
    match (childsOf t)[i]? with
    | some c => subtreeAt? c is
    | none => none

/-- The path segments `itempath` collects, top-down: the Python loop
walks parent pointers upward and reverses; for the item at child index
`i`, `namemap[q].index(item)` (Python object identity) is the number of
earlier same-named siblings. -/
def itempathAux : RNode → List Nat → Option (List String)
  | _, [] => some []
  | t, i :: is =>
    match (childsOf t)[i]? with
    | none => none
    | some c =>
      let q := quotename (shortnameOf c)
      let k := ((childsOf t).take i).countP (hasQName q)
      let seg := if k = 0 then q else q ++ "#" ++ natToDecimal k
      match itempathAux c is with
      | none => none
      | some rest => some (seg :: rest)

/-- `itempath(item)` for the item at access path `pos` under `root`:
`'/'.join(...)` of the segments (`none` when `pos` is not a valid
position). -/
def itempath (root : RNode) (pos : List Nat) : Option String :=
  (itempathAux root pos).map (pyJoin "/")

/-- The two `ValueError` messages of `findbyitempath`. -/
inductive FindErr where
  | invalid
  | notfound
deriving DecidableEq

/-- One step of Python `str.split('/')`. -/
def splitStep (c : Char) (acc : List (List Char)) : List (List Char) :=
  if c = '/' then [] :: acc
  else
    match acc with
    | a :: as => (c :: a) :: as
    | [] => [[c]]

/-- Python `path.split('/')` (`''.split('/') == ['']`). -/
def pySplitSlash (s : String) : List String :=
  (s.data.foldr splitStep [[]]).map fun l => ⟨l⟩

/-- Python `q.rfind(c)`: index of the last occurrence (`none` for the
`-1` result). -/
def rfindIdx (s : String) (c : Char) : Option Nat :=
  match s.data.reverse.findIdx? (fun x => x == c) with
  | some j => some (s.data.length - 1 - j)
  | none => none

/-- `digitsVal` of a decimal digit string. -/
def digitsVal (ds : List Char) : Nat :=
  ds.foldl (fun n c => 10 * n + (c.toNat - '0'.toNat)) 0

/-- Python `int(s)` restricted to an optional leading minus and decimal
digits (the builtin additionally strips whitespace and accepts `+` and
`_` separators, which never occur in the inputs considered here). -/
def parseIntOpt (s : String) : Option Int :=
  match s.data with
  | [] => none
  | c :: ds =>
    if c = '-' then
      if ds.isEmpty then none
      else if ds.all Char.isDigit then some (-(digitsVal ds : Int))
      else none
    else if (c :: ds).all Char.isDigit then some ((digitsVal (c :: ds) : Int))
    else none

/-- Python list indexing `l[i]` with negative indices counting from the
end; `none` stands for `IndexError`. -/
def pyIndex {α : Type} (l : List α) (i : Int) : Option α :=
  if 0 ≤ i then l[i.toNat]?
  else if 0 ≤ i + l.length then l[(i + l.length).toNat]? else none

/-- Parse one path segment of `findbyitempath`: split at the last `#`,
parse the index (a parse failure is `ValueError('invalid path')`); a
segment without `#` gets index 0. -/
def parseSeg (q : String) : Except FindErr (String × Int) :=
  match rfindIdx q '#' with
  | some h =>
    match parseIntOpt ⟨q.data.drop (h + 1)⟩ with
    | some i => .ok (⟨q.data.take h⟩, i)
    | none => .error .invalid
  | none => .ok (q, 0)

/-- The segment loop of `findbyitempath`: `namemap[q][i]` raising
`LookupError` is `ValueError('not found')`. -/
def findSegs : RNode → List String → Except FindErr RNode
  | t, [] => .ok t
  | t, q :: qs =>
    match parseSeg q with
    | .error e => .error e
    | .ok (qn, i) =>
      match pyIndex (sameNamed (childsOf t) qn) i with
      | some c => findSegs c qs
      | none => .error .notfound

/-- `findbyitempath(root, path)`. -/
def findbyitempath (root : RNode) (path : String) : Except FindErr RNode :=
  if path = "" then .ok root
  else findSegs root (pySplitSlash path)

/-! ### status.py: partial (hunk) selection reconciliation -/

/-- One diff hunk as held by the file data: its starting line and the
user's exclusion flag.  The `filedata` module is not part of this file
set; modelled from the spec: hunks are matched by `fromline`, carry an
`excluded` flag, and `excludecount` counts the excluded hunks. -/
structure Hunk where
  fromline : Nat
  excluded : Bool
deriving DecidableEq

/-- `fd.changes.hunks`. -/
abbrev Changes := List Hunk

/-- `changes.excludecount` (modelled from the spec as the number of
excluded hunks). -/
def excludecount (cs : Changes) : Nat := cs.countP (fun h => h.excluded)

/-- Insertion-ordered association lists standing for Python dicts (keys
unique in every reachable state). -/
def dictGet? {β : Type} : List (String × β) → String → Option β
  | [], _ => none
  | e :: d, k => if e.1 == k then some e.2 else dictGet? d k

/-- `d[k] = v`: replace in place, or append when the key is new. -/
def dictSet {β : Type} : List (String × β) → String → β → List (String × β)
  | [], k, v => [(k, v)]
  | e :: d, k, v => if e.1 == k then (k, v) :: d else e :: dictSet d k v

/-- `del d[k]` (no-op when the key is absent). -/
def dictDel {β : Type} : List (String × β) → String → List (String × β)
  | [], _ => []
  | e :: d, k => if e.1 == k then d else e :: dictDel d k

/-- The `StatusWidget` state `_updatePartials` touches: the `partials`
dictionary (file → changes) and the model's `checked` dictionary. -/
structure PartState where
  partials : List (String × Changes)
  checked : List (String × Bool)

/-- One entry of the first loop of `_updatePartials`: a file with no
excluded hunk collapses to fully checked, one with every hunk excluded
to fully unchecked; others leave `checked` alone. -/
def collapseStep (ch : List (String × Bool)) (e : String × Changes) :
    List (String × Bool) :=
  if excludecount e.2 = 0 then dictSet ch e.1 true
  else if excludecount e.2 = e.2.length then dictSet ch e.1 false
  else ch

/-- The first loop of `_updatePartials`: update `checked` for every
collapsing file and delete those files from `partials`. -/
def collapsePass (st : PartState) : PartState :=
  { partials := st.partials.filter (fun e =>
      !(excludecount e.2 == 0 || excludecount e.2 == e.2.length)),
    checked := st.partials.foldl collapseStep st.checked }

/-- `oldstates[fromline]` of the dict comprehension
`{c.fromline: c.excluded for c in oldhunks}` (the last hunk with a given
`fromline` wins, as in a Python dict build). -/
def oldStateFor (oldhunks : Changes) (fl : Nat) : Option Bool :=
  (oldhunks.reverse.find? (fun h => h.fromline == fl)).map
    (fun h => h.excluded)

/-- The merge loop: each new hunk whose `fromline` appears in the old
hunk list takes the recorded exclusion (via `fd.setChunkExcluded`);
other hunks are left as delivered. -/
def setChunkStates (oldhunks : Changes) (cs : Changes) : Changes :=
  cs.map fun h =>
    match oldStateFor oldhunks h.fromline with
    | some b => { h with excluded := b }
    | none => h

/-- `StatusWidget.getChecked()` (no `types` filter): files that are
partially selected (some hunk enabled) or, when not in `partials`,
checked in the model. -/
def getCheckedList (st : PartState) : List String :=
  (st.checked.filter (fun e =>
    match dictGet? st.partials e.1 with
    | some cs => excludecount cs < cs.length
    | none => e.2)).map Prod.fst

/-- `StatusWidget._updatePartials(fd)` for the file `wfile` with the new
diff `changes` (`none` when the file has no diff): collapse pass, then
drop the file (no diff), merge old exclusions (still partial), or
exclude everything when the file is not checked; the refreshed file is
always re-recorded in `partials`. -/
def updatePartials (st : PartState) (wfile : String)
    (changes : Option Changes) : PartState :=
  let st1 := collapsePass st
  match changes with
  | none => { st1 with partials := dictDel st1.partials wfile }
  | some cs =>
    match dictGet? st1.partials wfile with
    | some oldchanges =>
      { st1 with partials :=
          dictSet st1.partials wfile (setChunkStates oldchanges cs) }
    | none =>
      let cs' := if (getCheckedList st1).contains wfile then cs
                 else cs.map fun h => { h with excluded := true }
      { st1 with partials := dictSet st1.partials wfile cs' }

/-- `StatusWidget.updateModel` lines 517-520: every file no longer among
the new model's checked keys is removed from `partials`. -/
def refreshPartialsCleanup (partials : List (String × Changes))
    (newCheckedKeys : List String) : List (String × Changes) :=
  partials.filter (fun e => newCheckedKeys.contains e.1)

/-! ### customtools.py: `ToolsFrame.applyChanges` -/

/-- A tool-configuration value, Python `Union[str, bool]`. -/
inductive TVal where
  | s (v : String)
  | b (v : Bool)
deriving DecidableEq

/-- Python `str(value)`. -/
def TVal.str : TVal → String
  | .s v => v
  | .b true => "True"
  | .b false => "False"

/-- Python `value != ''` (a bool never equals a string). -/
def TVal.nonempty : TVal → Bool
  | .s v => v ≠ ""
  | .b _ => true

/-- The ini configuration as a map from (section, key) to value. -/
def Ini : Type := String × String → Option String

/-- `updateIniValue`: `del ini[section][key]` (ignoring `KeyError`) and
then `ini.set` when a new value is given — on the map, the key now holds
exactly `newvalue`. -/
def updateIniValue (ini : Ini) (sec key : String)
    (newvalue : Option String) : Ini :=
  fun k => if k = (sec, key) then newvalue else ini k

/-- The fixed `fieldnames` tuple of `applyChanges`. -/
def fieldnames : List String :=
  ["command", "workingdir", "label", "tooltip", "icon", "location",
   "enable", "showoutput"]

/-- One tool's configuration dict (field → value, insertion-ordered). -/
abbrev ToolConfig := List (String × TVal)

/-- The `(section, '<name>.<field>')` ini key of a tool field. -/
def toolKey (name field : String) : String × String :=
  ("tortoisehg-tools", name ++ "." ++ field)

/-- The `ToolsFrame` state `applyChanges` reads: the originally loaded
tools (`curvalue`), the current tools (`value()`), the per-location tool
lists as (location, original guidef, current guidef), and the global
tool list's original and current values. -/
structure ToolsFrameState where
  curvalue : List (String × ToolConfig)
  tools : List (String × ToolConfig)
  widgets : List (String × List String × List String)
  globalCur : List String
  globalVal : List String

/-- Python `==` on two dicts held as insertion-ordered association
lists with unique keys: the same key set, with the values at each key
compared by `eqv` — insertion order does not matter. -/
def pyDictEq {β : Type} (eqv : β → β → Bool)
    (d1 d2 : List (String × β)) : Bool :=
  d1.all (fun e => match dictGet? d2 e.1 with
    | some v => eqv e.2 v
    | none => false) &&
  d2.all (fun e => (dictGet? d1 e.1).isSome)

/-- Python `==` on one tool's configuration dict. -/
def toolConfigEq (c1 c2 : ToolConfig) : Bool :=
  pyDictEq (fun a b => a == b) c1 c2

/-- Python `==` on the tools dict (`self.tortoisehgtools ==
self.curvalue`): order-insensitive, recursively so for the nested
per-tool configuration dicts. -/
def toolsEq (t1 t2 : List (String × ToolConfig)) : Bool :=
  pyDictEq toolConfigEq t1 t2

/-- `ToolsFrame.isDirty`: some location list changed (a Python list
comparison, order-sensitive), the global tool list changed, or the tool
dict differs from the original (a Python dict comparison,
order-insensitive). -/
def toolsIsDirty (st : ToolsFrameState) : Bool :=
  st.widgets.any (fun w => w.2.2 ≠ w.2.1) || (st.globalVal ≠ st.globalCur)
    || !(toolsEq st.tools st.curvalue)

/-- `name[0] in '|-'` (separator pseudo-tools are not written back; a
name is never empty in reachable states, Python would raise
`IndexError`). -/
def nameSkipped (name : String) : Bool :=
  match name.data with
  | c :: _ => c = '|' || c = '-'
  | [] => false

/-- Pass 1 of `applyChanges`: delete every field key of every originally
loaded tool from the `tortoisehg-tools` section. -/
def deleteOrigTools (cur : List (String × ToolConfig)) (ini : Ini) : Ini :=
  cur.foldl (fun ini nc =>
    fieldnames.foldl (fun ini field =>
      updateIniValue ini "tortoisehg-tools" (nc.1 ++ "." ++ field) none)
      ini) ini

/-- `for field in sorted(tools[name])`. -/
def sortedFields (cfg : ToolConfig) : ToolConfig :=
  cfg.mergeSort (fun a b => a.1 ≤ b.1)

/-- The inner loop of pass 2: write every non-empty field of one tool. -/
def writeToolFields (name : String) (cfg : ToolConfig) (ini : Ini) : Ini :=
  (sortedFields cfg).foldl (fun ini fv =>
    if fv.2.nonempty then
      updateIniValue ini "tortoisehg-tools" (name ++ "." ++ fv.1)
        (some fv.2.str)
    else ini) ini

/-- Pass 2 of `applyChanges`: rewrite the current tools' keys, skipping
separator entries. -/
def writeTools (tools : List (String × ToolConfig)) (ini : Ini) : Ini :=
  tools.foldl (fun ini nc =>
    if nameSkipped nc.1 then ini
    else writeToolFields nc.1 nc.2 ini) ini

/-- Pass 3 of `applyChanges`: save the guidef of every dirty location
list into the `tortoisehg` section (`' '.join(toollist)`). -/
def writeGuidefs (widgets : List (String × List String × List String))
    (ini : Ini) : Ini :=
  widgets.foldl (fun ini w =>
    if w.2.2 ≠ w.2.1 then
      updateIniValue ini "tortoisehg" w.1 (some (pyJoin " " w.2.2))
    else ini) ini

/-- `ToolsFrame.applyChanges(ini)`: nothing happens unless dirty;
otherwise delete the original tools' keys, rewrite the current tools'
keys, save the dirty location lists, and report `True`. -/
def applyChanges (st : ToolsFrameState) (ini : Ini) : Ini × Bool :=
  if toolsIsDirty st then
    (writeGuidefs st.widgets
      (writeTools st.tools (deleteOrigTools st.curvalue ini)), true)
  else (ini, false)

/-! ### status.py: `WctxModel` (rows, checked paths, sorting, filter) -/

/-- One row of the model: `[path, status, merge state, display path,
extension, size]` (`sizek` is `''` or an integer, hence `Option`). -/
structure WRow where
  path : String
  status : String
  mst : String
  upath : String
  ext : String
  sizek : Option Nat
deriving DecidableEq

/-- `mkrow(fname, st)`: the merge state, extension and size come from
the merge state and working context; they are supplied as an oracle
`info` since the underlying repository objects live outside this file
set (on `OSError` the fields stay empty, which an `info` value can also
express). -/
def mkrow (info : String → String × String × Option Nat)
    (fname st : String) : WRow :=
  { path := fname, status := st, mst := (info fname).1, upath := fname,
    ext := (info fname).2.1, sizek := (info fname).2.2 }

/-- The status lists handed to `WctxModel.__init__` (`wstatus` plus
`wctx.dirtySubrepos`). -/
structure WStatus where
  modified : List String
  added : List String
  removed : List String
  deleted : List String
  unknown : List String
  ignored : List String
  clean : List String
  dirtySubs : List String

/-- The `opts` flags and the parsed `ciexclude` list. -/
structure WOpts where
  modified : Bool
  added : Bool
  removed : Bool
  deleted : Bool
  unknown : Bool
  ignored : Bool
  clean : Bool
  subrepo : Bool
  ciexcludes : List String

/-- Everything `WctxModel.__init__` reads. -/
structure WInit where
  wstatus : WStatus
  opts : WOpts
  savechecks : Bool
  priorChecked : List (String × Bool)
  defcheck : String
  pctxmatch : String → Bool
  msUnresolved : List String
  amending : List String
  rowinfo : String → String × String × Option Nat

/-- One category loop of `__init__`: append a row per file and record
`nchecked[f] = checked.get(f, default(f))`. -/
def wAddCat (info : String → String × String × Option Nat)
    (checked0 : List (String × Bool)) (letterRow : String)
    (defv : String → Bool) (files : List String)
    (acc : List WRow × List (String × Bool)) :
    List WRow × List (String × Bool) :=
  files.foldl (fun acc f =>
    (acc.1 ++ [mkrow info f letterRow],
     dictSet acc.2 f ((dictGet? checked0 f).getD (defv f)))) acc

/-- The unresolved-merge and amend loops: add the file as clean only
when it is not yet in `nchecked`. -/
def wAddIfAbsent (info : String → String × String × Option Nat)
    (checked0 : List (String × Bool)) (files : List String)
    (acc : List WRow × List (String × Bool)) :
    List WRow × List (String × Bool) :=
  files.foldl (fun acc f =>
    if (dictGet? acc.2 f).isSome then acc
    else (acc.1 ++ [mkrow info f "C"],
          dictSet acc.2 f ((dictGet? checked0 f).getD true))) acc

/-- The row and `nchecked` construction of `WctxModel.__init__`. -/
def wctxInit (wi : WInit) : List WRow × List (String × Bool) :=
  let checked := if wi.savechecks then wi.priorChecked else []
  let dc := fun c => wi.defcheck.data.contains c
  let exc := wi.opts.ciexcludes
  let a0 : List WRow × List (String × Bool) := ([], [])
  let a1 := if wi.opts.modified then
      wAddCat wi.rowinfo checked "M"
        (fun f => dc 'M' && !exc.contains f && wi.pctxmatch f)
        wi.wstatus.modified a0
    else a0
  let a2 := if wi.opts.added then
      wAddCat wi.rowinfo checked "A"
        (fun f => dc 'A' && !exc.contains f && wi.pctxmatch f)
        wi.wstatus.added a1
    else a1
  let a3 := if wi.opts.removed then
      wAddCat wi.rowinfo checked "R"
        (fun f => dc 'R' && !exc.contains f && wi.pctxmatch f)
        wi.wstatus.removed a2
    else a2
  let a4 := if wi.opts.deleted then
      wAddCat wi.rowinfo checked "!"
        (fun f => dc 'D' && !exc.contains f && wi.pctxmatch f)
        wi.wstatus.deleted a3
    else a3
  let a5 := if wi.opts.unknown then
      wAddCat wi.rowinfo checked "?" (fun _ => dc '?')
        wi.wstatus.unknown a4
    else a4
  let a6 := if wi.opts.ignored then
      wAddCat wi.rowinfo checked "I" (fun _ => dc 'I')
        wi.wstatus.ignored a5
    else a5
  let a7 := if wi.opts.clean then
      wAddCat wi.rowinfo checked "C" (fun _ => dc 'C')
        wi.wstatus.clean a6
    else a6
  let a8 := if wi.opts.subrepo then
      wAddCat wi.rowinfo checked "S"
        (fun f => dc 'S' && !exc.contains f) wi.wstatus.dirtySubs a7
    else a7
  let a9 := wAddIfAbsent wi.rowinfo checked wi.msUnresolved a8
  wAddIfAbsent wi.rowinfo checked wi.amending a9

/-- The model state: `unfiltered` and `rows` start as the same Python
list object (`shared`); `setFilter` builds a fresh list for `rows`. -/
structure WctxModel where
  unfiltered : List WRow
  rows : List WRow
  checked : List (String × Bool)
  shared : Bool

/-- A freshly constructed model. -/
def initModel (wi : WInit) : WctxModel :=
  { unfiltered := (wctxInit wi).1, rows := (wctxInit wi).1,
    checked := (wctxInit wi).2, shared := true }

/-- The Qt check states `setData` can receive. -/
inductive CheckSt where
  | checked
  | unchecked
  | partially
deriving DecidableEq

/-- `WctxModel.data(index, CheckStateRole)` on the check column, given
the widget's `partials`. -/
def wDataCheckState (partials : List (String × Changes)) (m : WctxModel)
    (i : Nat) : Option CheckSt :=
  match m.rows[i]? with
  | none => none
  | some r =>
    match dictGet? partials r.path with
    | some cs =>
      if excludecount cs = 0 then some CheckSt.checked
      else if excludecount cs = cs.length then some CheckSt.unchecked
      else some CheckSt.partially
    | none =>
      if (dictGet? m.checked r.path).getD false then some CheckSt.checked
      else some CheckSt.unchecked

/-- `WctxModel.setData` on the check column: no-op when the value equals
the current state, reject `PartiallyChecked`, otherwise record the
check mark for the row's path. -/
def wSetData (partials : List (String × Changes)) (m : WctxModel)
    (i : Nat) (value : CheckSt) : WctxModel × Bool :=
  match m.rows[i]? with
  | none => (m, false)
  | some r =>
    if wDataCheckState partials m i = some value then (m, true)
    else if value = CheckSt.partially then (m, false)
    else
      let ch := dictSet m.checked r.path (value == CheckSt.checked)
      ({ m with checked := ch }, true)

/-- Python `bytes.lower()` on ASCII. -/
def pyLower (s : String) : String :=
  ⟨s.data.map (fun c =>
    if 'A' ≤ c ∧ c ≤ 'Z' then Char.ofNat (c.toNat + 32) else c)⟩

/-- `getStatusRank` / `getMergeStatusRank`: position in the rank list,
or its length when absent. -/
def rankIn (sl : List String) (v : String) : Nat :=
  match sl.indexOf? v with
  | some i => i
  | none => sl.length

/-- `x[COL_SIZE]` as a sort key: `-1` for the empty string. -/
def sizeKey (r : WRow) : Int :=
  match r.sizek with
  | none => -1
  | some n => n

/-- `WctxModel.sort(col, order)`: a stable secondary sort by lowercased
path, then (except for the display-path column) an optional reverse for
descending order, a stable primary sort by the column key, and a final
reverse for descending order.  When `rows` and `unfiltered` are still
the same list object, Python's in-place sort reorders both. -/
def wSortRows (checked : List (String × Bool)) (rows : List WRow)
    (col : Nat) (desc : Bool) : List WRow :=
  let r1 := rows.mergeSort (fun a b => pyLower a.path ≤ pyLower b.path)
  let r2 :=
    if col = 3 then r1
    else
      let r1d := if desc then r1.reverse else r1
      if col = 0 then
        r1d.mergeSort (fun a b =>
          !((dictGet? checked a.path).getD false) ||
            (dictGet? checked b.path).getD false)
      else if col = 1 then
        r1d.mergeSort (fun a b =>
          rankIn ["S", "M", "A", "R", "!", "?", "C", "I", ""] a.status ≤
            rankIn ["S", "M", "A", "R", "!", "?", "C", "I", ""] b.status)
      else if col = 2 then
        r1d.mergeSort (fun a b =>
          rankIn ["S", "U", "R", ""] a.mst ≤ rankIn ["S", "U", "R", ""] b.mst)
      else if col = 5 then
        r1d.mergeSort (fun a b => sizeKey a ≤ sizeKey b)
      else
        r1d.mergeSort (fun a b => a.ext ≤ b.ext)
  if desc then r2.reverse else r2

/-- `WctxModel.sort(col, order)` as a state update: when `rows` and
`unfiltered` are still the same list object, the in-place sort reorders
both. -/
def wSort (m : WctxModel) (col : Nat) (desc : Bool) : WctxModel :=
  { unfiltered := if m.shared then wSortRows m.checked m.rows col desc
      else m.unfiltered,
    rows := wSortRows m.checked m.rows col desc,
    checked := m.checked, shared := m.shared }

/-- `WctxModel.setFilter(match)`: materialize only the rows whose
display path contains the match string; `unfiltered` and `checked` are
left alone, and `rows` is now a fresh list. -/
def wSetFilter (m : WctxModel) (mtch : String) : WctxModel :=
  { unfiltered := m.unfiltered,
    rows := m.unfiltered.filter (fun r => decide (mtch.data <:+: r.upath.data)),
    checked := m.checked, shared := false }

/-- One model mutation: a check toggle, a sort, or a name filter. -/
inductive WStep : WctxModel → WctxModel → Prop where
  | toggle (partials : List (String × Changes)) (m : WctxModel)
      (i : Nat) (value : CheckSt) : WStep m (wSetData partials m i value).1
  | sort (m : WctxModel) (col : Nat) (desc : Bool) :
      WStep m (wSort m col desc)
  | filter (m : WctxModel) (mtch : String) :
      WStep m (wSetFilter m mtch)

/-- The paths of a row list. -/
def pathsOf (rows : List WRow) : List String := rows.map WRow.path

/-- The model invariant that actually holds: the checked keys coincide
with the paths of the *unfiltered* row list, the materialized rows are
drawn from the unfiltered list, and before any filter the two lists are
the same. -/
def WInv (m : WctxModel) : Prop :=
  (∀ p ∈ m.checked.map Prod.fst, p ∈ pathsOf m.unfiltered) ∧
  (∀ p ∈ pathsOf m.unfiltered, p ∈ m.checked.map Prod.fst) ∧
  (∀ r ∈ m.rows, r ∈ m.unfiltered) ∧
  (m.shared = true → m.rows = m.unfiltered)

/-- A concrete one-file construction input: one modified file `a`,
`opts` showing only modified files, default check list `MAR!S`, no
excludes, no unresolved or amend files. -/
def wInitExample : WInit :=
  { wstatus := { modified := ["a"], added := [], removed := [],
                 deleted := [], unknown := [], ignored := [],
                 clean := [], dirtySubs := [] },
    opts := { modified := true, added := false, removed := false,
              deleted := false, unknown := false, ignored := false,
              clean := false, subrepo := false, ciexcludes := [] },
    savechecks := true, priorChecked := [], defcheck := "MAR!S",
    pctxmatch := fun _ => true, msUnresolved := [], amending := [],
    rowinfo := fun _ => ("", "", none) }

/-! ### repotreeitem.py: the mutable tree as an object heap -/

/-- The mutable object graph of `RepoTreeItem`s: each object identity
(a `Nat`) carries its `childs` list, its `_parent` pointer
(`parentOf`) and its `_row` index (`rowOf`). -/
structure RHeap where
  childs : Nat → List Nat
  parentOf : Nat → Option Nat
  rowOf : Nat → Nat

/-- `RepoTreeItem.appendChild(child)`: set the row to the old child
count and the parent to `self`, then append to `self.childs`. -/
def appendChildH (h : RHeap) (self child : Nat) : RHeap :=
  { childs := fun n => if n = self then h.childs self ++ [child]
      else h.childs n,
    parentOf := fun n => if n = child then some self else h.parentOf n,
    rowOf := fun n => if n = child then (h.childs self).length
      else h.rowOf n }

/-- Python `list.insert` for a non-negative index (past the end it
appends). -/
def pyInsert (l : List Nat) (row : Nat) (c : Nat) : List Nat :=
  l.take row ++ c :: l.drop row

/-- `RepoTreeItem.insertChild(row, child)`. -/
def insertChildH (h : RHeap) (row self child : Nat) : RHeap :=
  { childs := fun n => if n = self then pyInsert (h.childs self) row child
      else h.childs n,
    parentOf := fun n => if n = child then some self else h.parentOf n,
    rowOf := fun n => if n = child then row else h.rowOf n }

/-- `RepoTreeItem.removeRows(row, count)` on the heap: replace the
child list by `cs[:row] + cs[row+count:]`, null the removed children's
parent and row, then renumber the kept children in order. -/
def removeRowsH (h : RHeap) (self row count : Nat) : RHeap :=
  let cs := h.childs self
  let rem := (cs.drop row).take count
  let keep := cs.take row ++ cs.drop (row + count)
  { childs := fun n => if n = self then keep else h.childs n,
    parentOf := rem.foldl (fun f c => fun m => if m = c then none else f m)
      h.parentOf,
    rowOf := keep.enum.foldl
      (fun f ic => fun m => if m = ic.2 then ic.1 else f m)
      (rem.foldl (fun f c => fun m => if m = c then 0 else f m) h.rowOf) }

/-- Transitive reachability along child edges of the heap. -/
inductive Reaches (h : RHeap) : Nat → Nat → Prop where
  | step {p c : Nat} : c ∈ h.childs p → Reaches h p c
  | trans {a b c : Nat} : Reaches h a b → Reaches h b c → Reaches h a c

/-- Modelled from the spec: a strict forest over the live nodes — child
lists stay inside the carrier, every node either is a detached root or
occurs exactly once in the child list of exactly one live parent with
its `_parent` pointer naming that parent, and no node reaches itself
along child edges. -/
def StrictForest (h : RHeap) (nodes : List Nat) : Prop :=
  (∀ p ∈ nodes, ∀ c ∈ h.childs p, c ∈ nodes) ∧
  (∀ n ∈ nodes,
    (h.parentOf n = none → ∀ q ∈ nodes, n ∉ h.childs q) ∧
    (∀ p, h.parentOf n = some p → p ∈ nodes ∧ (h.childs p).count n = 1 ∧
      ∀ q ∈ nodes, q ≠ p → n ∉ h.childs q)) ∧
  (∀ n, ¬ Reaches h n n)

/-- A heap of detached childless nodes. -/
def hExample : RHeap :=
  { childs := fun _ => [], parentOf := fun _ => none, rowOf := fun _ => 0 }

/-! ### repotreeitem.py: registry XML dump/undump -/

/-- One event of the registry XML stream: a start element carrying its
attributes, or an end element. -/
inductive XEvent where
  | start (tag : String) (attrs : List (String × String))
  | finish (tag : String)
deriving DecidableEq

/-- One lowercase hex digit, as `node.hex` produces. -/
def hexDigit (n : Nat) : Char :=
  if n < 10 then Char.ofNat (48 + n) else Char.ofNat (87 + n)

/-- One byte as two lowercase hex digits. -/
def byteHex (b : Nat) : List Char :=
  [hexDigit (b / 16), hexDigit (b % 16)]

/-- `node.hex(basenode)`: every byte as two hex digits. -/
def nodeHex (bs : List Nat) : String :=
  ⟨bs.flatMap byteHex⟩

/-- The value of one hex digit, accepting both cases. -/
def hexVal? (c : Char) : Option Nat :=
  if '0' ≤ c ∧ c ≤ '9' then some (c.toNat - 48)
  else if 'a' ≤ c ∧ c ≤ 'f' then some (c.toNat - 87)
  else if 'A' ≤ c ∧ c ≤ 'F' then some (c.toNat - 55)
  else none

/-- `node.bin`: decode a hex string to bytes, failing on a non-digit or
an odd length. -/
def nodeBin : List Char → Option (List Nat)
  | [] => some []
  | c1 :: c2 :: rest =>
    match hexVal? c1, hexVal? c2, nodeBin rest with
    | some hh, some ll, some bs => some ((16 * hh + ll) :: bs)
    | _, _, _ => none
  | [_] => none

/-- The attributes `RepoItem.dump` writes: `root`, `shortname`,
`basenode` in hex, and `sharedpath` only when it is non-empty. -/
def repoAttrs (root sn : String) (bn : List Nat) (sp : String) :
    List (String × String) :=
  [("root", root), ("shortname", sn), ("basenode", nodeHex bn)] ++
    (if sp = "" then [] else [("sharedpath", sp)])

/-- The `xmltagname` written for each node class. -/
def headTag : RNode → String
  | .treeitem _ => "treeitem"
  | .repo _ _ _ _ _ => "repo"
  | .standalonesub _ _ _ _ _ => "subrepo"
  | .subrepo _ _ _ _ _ => "subrepo"
  | .aliensub _ _ _ => "subrepo"
  | .group _ _ => "group"
  | .allgroup _ _ => "allgroup"

/-- The attributes each node class dumps (repo-like classes write the
computed `shortname()`, alien subrepos write `root` and `repotype`,
groups write `name`). -/
def headAttrs : RNode → List (String × String)
  | .treeitem _ => []
  | .repo root sn sp bn _ =>
      repoAttrs root (if sn = "" then pyBasename root else sn) bn sp
  | .standalonesub root sn sp bn _ =>
      repoAttrs root (if sn = "" then pyBasename root else sn) bn sp
  | .subrepo root sn sp bn _ =>
      repoAttrs root (if sn = "" then pyBasename root else sn) bn sp
  | .aliensub root t _ => [("root", root), ("repotype", t)]
  | .group nm _ => [("name", nm)]
  | .allgroup nm _ => [("name", nm)]

mutual
/-- `dumpObject`: a start element with the class tag and attributes,
the dumped children (none for an alien subrepo, whose `dump` writes
attributes only), and the end element. -/
def dumpNode : RNode → List XEvent
  | .treeitem cs =>
      XEvent.start "treeitem" [] ::
        (dumpChilds cs ++ [XEvent.finish "treeitem"])
  | .repo root sn sp bn cs =>
      XEvent.start "repo"
          (repoAttrs root (if sn = "" then pyBasename root else sn) bn sp) ::
        (dumpChilds cs ++ [XEvent.finish "repo"])
  | .standalonesub root sn sp bn cs =>
      XEvent.start "subrepo"
          (repoAttrs root (if sn = "" then pyBasename root else sn) bn sp) ::
        (dumpChilds cs ++ [XEvent.finish "subrepo"])
  | .subrepo root sn sp bn cs =>
      XEvent.start "subrepo"
          (repoAttrs root (if sn = "" then pyBasename root else sn) bn sp) ::
        (dumpChilds cs ++ [XEvent.finish "subrepo"])
  | .aliensub root t _ =>
      [XEvent.start "subrepo" [("root", root), ("repotype", t)],
       XEvent.finish "subrepo"]
  | .group nm cs =>
      XEvent.start "group" [("name", nm)] ::
        (dumpChilds cs ++ [XEvent.finish "group"])
  | .allgroup nm cs =>
      XEvent.start "allgroup" [("name", nm)] ::
        (dumpChilds cs ++ [XEvent.finish "allgroup"])

/-- `_dumpChild`: dump each child in order. -/
def dumpChilds : List RNode → List XEvent
  | [] => []
  | c :: cs => dumpNode c ++ dumpChilds cs
end

/-- The events of a dumped node after its start element. -/
def bodyEvents : RNode → List XEvent
  | .treeitem cs => dumpChilds cs ++ [XEvent.finish "treeitem"]
  | .repo _ _ _ _ cs => dumpChilds cs ++ [XEvent.finish "repo"]
  | .standalonesub _ _ _ _ cs => dumpChilds cs ++ [XEvent.finish "subrepo"]
  | .subrepo _ _ _ _ cs => dumpChilds cs ++ [XEvent.finish "subrepo"]
  | .aliensub _ _ _ => [XEvent.finish "subrepo"]
  | .group _ cs => dumpChilds cs ++ [XEvent.finish "group"]
  | .allgroup _ cs => dumpChilds cs ++ [XEvent.finish "allgroup"]

/-- `QXmlStreamReader.skipCurrentElement`: consume events up to and
including the end element that closes the current depth. -/
def skipElementF : Nat → Nat → List XEvent → Option (List XEvent)
  | 0, _, _ => none
  | _ + 1, _, [] => some []
  | fuel + 1, d, XEvent.start _ _ :: rest => skipElementF fuel (d + 1) rest
  | _ + 1, 0, XEvent.finish _ :: rest => some rest
  | fuel + 1, d + 1, XEvent.finish _ :: rest => skipElementF fuel d rest

mutual
/-- `_undumpChild`: read events until the enclosing end element (or the
end of the stream), undumping every start element as a child; `sub`
selects the `_undumpSubrepoItem` dispatcher used inside repo items, and
a `KeyError` on an unknown tag is ignored.  Fuel-based so the
definition stays kernel-computable. -/
def undumpChildsF : Nat → Bool → List XEvent → List RNode →
    Option (List RNode × List XEvent)
  | 0, _, _, _ => none
  | _ + 1, _, [], acc => some (acc, [])
  | _ + 1, _, XEvent.finish _ :: rest, acc => some (acc, rest)
  | fuel + 1, sub, XEvent.start tag attrs :: rest, acc =>
    match undumpItemF fuel sub tag attrs rest with
    | some (some item, rest2) => undumpChildsF fuel sub rest2 (acc ++ [item])
    | some (none, rest2) => undumpChildsF fuel sub rest2 acc
    | none => none

/-- `undumpObject` (over the `_xmlUndumpMap`) when `sub` is false, and
`_undumpSubrepoItem` (dispatch on the `repotype` attribute, defaulting
to `hg`) when `sub` is true, called after the start element has been
consumed; returns `none` for a failed `node.bin`, and `some (none, _)`
for the ignored unknown-tag `KeyError`. -/
def undumpItemF : Nat → Bool → String → List (String × String) →
    List XEvent → Option (Option RNode × List XEvent)
  | 0, _, _, _, _ => none
  | fuel + 1, true, _, attrs, rest =>
    let t := (dictGet? attrs "repotype").getD ""
    let t2 := if t = "" then "hg" else t
    if t2 = "hg" then
      match nodeBin ((dictGet? attrs "basenode").getD "").data with
      | none => none
      | some bn =>
        match undumpChildsF fuel true rest [] with
        | none => none
        | some (cs, rest2) =>
          some (some (RNode.subrepo ((dictGet? attrs "root").getD "")
            ((dictGet? attrs "shortname").getD "")
            ((dictGet? attrs "sharedpath").getD "") bn cs), rest2)
    else
      match skipElementF fuel 0 rest with
      | none => none
      | some rest2 =>
        some (some (RNode.aliensub ((dictGet? attrs "root").getD "")
          t2 []), rest2)
  | fuel + 1, false, tag, attrs, rest =>
    if tag = "treeitem" then
      match undumpChildsF fuel false rest [] with
      | none => none
      | some (cs, rest2) => some (some (RNode.treeitem cs), rest2)
    else if tag = "group" then
      match undumpChildsF fuel false rest [] with
      | none => none
      | some (cs, rest2) =>
        some (some (RNode.group ((dictGet? attrs "name").getD "") cs),
          rest2)
    else if tag = "allgroup" then
      match undumpChildsF fuel false rest [] with
      | none => none
      | some (cs, rest2) =>
        some (some (RNode.allgroup
          (if (dictGet? attrs "name").getD "" = "" then "default"
           else (dictGet? attrs "name").getD "") cs), rest2)
    else if tag = "repo" then
      match nodeBin ((dictGet? attrs "basenode").getD "").data with
      | none => none
      | some bn =>
        match undumpChildsF fuel true rest [] with
        | none => none
        | some (cs, rest2) =>
          some (some (RNode.repo ((dictGet? attrs "root").getD "")
            ((dictGet? attrs "shortname").getD "")
            ((dictGet? attrs "sharedpath").getD "") bn cs), rest2)
    else if tag = "subrepo" then
      match nodeBin ((dictGet? attrs "basenode").getD "").data with
      | none => none
      | some bn =>
        match undumpChildsF fuel true rest [] with
        | none => none
        | some (cs, rest2) =>
          some (some (RNode.standalonesub ((dictGet? attrs "root").getD "")
            ((dictGet? attrs "shortname").getD "")
            ((dictGet? attrs "sharedpath").getD "") bn cs), rest2)
    else
      some (none, rest)
end

/-- `undumpObject` on a whole stream with a given fuel. -/
def undumpObjectF (fuel : Nat) (evs : List XEvent) : Option RNode :=
  match evs with
  | XEvent.start tag attrs :: rest =>
    match undumpItemF fuel false tag attrs rest with
    | some (some item, _) => some item
    | _ => none
  | _ => none

/-- `undumpObject` with enough fuel for the stream. -/
def undumpObjectE (evs : List XEvent) : Option RNode :=
  undumpObjectF (evs.length + 1) evs

/-- Classes the generic `_xmlUndumpMap` dispatch can reproduce (the
children of tree items and groups). -/
def nonSubKindB : RNode → Bool
  | .subrepo _ _ _ _ _ => false
  | .aliensub _ _ _ => false
  | _ => true

/-- Classes the `_undumpSubrepoItem` dispatch can reproduce (the
children of repo-like items). -/
def subKindB : RNode → Bool
  | .subrepo _ _ _ _ _ => true
  | .aliensub _ _ _ => true
  | _ => false

/-- Base node ids are byte strings. -/
def bytesOkB (bn : List Nat) : Bool := bn.all (fun b => b < 256)

mutual
/-- The shapes the registry actually stores: tree items and groups hold
groups, repos and standalone subrepos; repo-like items hold subrepos
and alien subrepos; alien subrepos are childless with a repotype other
than `hg` and not empty; `allgroup` names are never empty (the
constructor replaces an empty name by `default`); base nodes are byte
strings. -/
def WFNodeB : RNode → Bool
  | .treeitem cs => WFTopB cs
  | .repo _ _ _ bn cs => bytesOkB bn && WFSubB cs
  | .standalonesub _ _ _ bn cs => bytesOkB bn && WFSubB cs
  | .subrepo _ _ _ bn cs => bytesOkB bn && WFSubB cs
  | .aliensub _ t cs => !(t == "") && !(t == "hg") && cs.isEmpty
  | .group _ cs => WFTopB cs
  | .allgroup nm cs => !(nm == "") && WFTopB cs

/-- Well-formed children of a tree item or group. -/
def WFTopB : List RNode → Bool
  | [] => true
  | c :: cs => nonSubKindB c && WFNodeB c && WFTopB cs

/-- Well-formed children of a repo-like item. -/
def WFSubB : List RNode → Bool
  | [] => true
  | c :: cs => subKindB c && WFNodeB c && WFSubB cs
end

mutual
/-- The tree `undump` rebuilds from a dumped tree: identical except
that the stored short name of a repo-like item becomes the computed
`shortname()` that was written to the registry. -/
def canonNode : RNode → RNode
  | .treeitem cs => .treeitem (canonChilds cs)
  | .repo root sn sp bn cs =>
      .repo root (if sn = "" then pyBasename root else sn) sp bn
        (canonChilds cs)
  | .standalonesub root sn sp bn cs =>
      .standalonesub root (if sn = "" then pyBasename root else sn) sp bn
        (canonChilds cs)
  | .subrepo root sn sp bn cs =>
      .subrepo root (if sn = "" then pyBasename root else sn) sp bn
        (canonChilds cs)
  | .aliensub root t cs => .aliensub root t (canonChilds cs)
  | .group nm cs => .group nm (canonChilds cs)
  | .allgroup nm cs => .allgroup nm (canonChilds cs)

/-- `canonNode` on every child. -/
def canonChilds : List RNode → List RNode
  | [] => []
  | c :: cs => canonNode c :: canonChilds cs
end

mutual
/-- Equality of the observable node data the claim enumerates: the
class, the root, the computed `shortname()`, the base node, the shared
path, the group name and repotype, and the children in order. -/
def obsEqB : RNode → RNode → Bool
  | .treeitem cs, .treeitem ds => obsEqChilds cs ds
  | .repo r1 s1 p1 b1 cs, .repo r2 s2 p2 b2 ds =>
      r1 == r2 && p1 == p2 && b1 == b2 &&
        ((if s1 = "" then pyBasename r1 else s1) ==
          (if s2 = "" then pyBasename r2 else s2)) && obsEqChilds cs ds
  | .standalonesub r1 s1 p1 b1 cs, .standalonesub r2 s2 p2 b2 ds =>
      r1 == r2 && p1 == p2 && b1 == b2 &&
        ((if s1 = "" then pyBasename r1 else s1) ==
          (if s2 = "" then pyBasename r2 else s2)) && obsEqChilds cs ds
  | .subrepo r1 s1 p1 b1 cs, .subrepo r2 s2 p2 b2 ds =>
      r1 == r2 && p1 == p2 && b1 == b2 &&
        ((if s1 = "" then pyBasename r1 else s1) ==
          (if s2 = "" then pyBasename r2 else s2)) && obsEqChilds cs ds
  | .aliensub r1 t1 cs, .aliensub r2 t2 ds =>
      r1 == r2 && t1 == t2 && obsEqChilds cs ds
  | .group n1 cs, .group n2 ds => n1 == n2 && obsEqChilds cs ds
  | .allgroup n1 cs, .allgroup n2 ds => n1 == n2 && obsEqChilds cs ds
  | _, _ => false

/-- `obsEqB` on children pairwise, demanding the same length and
order. -/
def obsEqChilds : List RNode → List RNode → Bool
  | [], [] => true
  | c :: cs, d :: ds => obsEqB c d && obsEqChilds cs ds
  | _, _ => false
end

/-- A concrete well-formed registry tree: two groups, a repo with a
subrepo and an alien subrepo. -/
def exampleRegistry : RNode :=
  RNode.treeitem
    [RNode.allgroup "default" [],
     RNode.group "work"
       [RNode.repo "/home/u/proj" "" "" [0, 255]
          [RNode.subrepo "/home/u/proj/sub" "x" "/tmp/shared" [16] [],
           RNode.aliensub "/home/u/proj/git" "git" []],
        RNode.standalonesub "/home/u/alone" "al" "" [] []]]

/-! ## Theorems -/

/-- C4 (counterexample): the claim says a custom-tool name containing
whitespace is rejected, but `validateForm` only searches for a space
character: the name `"a\tb"` contains a tab and is accepted. -/
theorem toolValidateForm_accepts_tab :
    toolValidateForm ⟨"a\tb", "cmd"⟩ = "" := by decide

/-- C4 (amended): after stripping, a tool name is rejected exactly when
it is empty or contains a space (not general whitespace), an empty raw
command is rejected, and the tool dialog accepts otherwise; the hook
dialog accepts exactly a known hook type, a stripped hook name free of
`=` and whitespace, and a non-empty stripped command. -/
theorem validateForm_spec :
    (∀ f : ToolForm,
      toolValidateForm f = "" ↔
        (pyStrip f.nameText ≠ "" ∧
         ' ' ∉ (pyStrip f.nameText).toList ∧
         f.commandText ≠ "")) ∧
    (∀ f : HookForm,
      hookValidateForm f = "" ↔
        (f.hooktypeText ∈ hooktypes ∧
         hookNameOk (pyStrip f.nameText) = true ∧
         pyStrip f.commandText ≠ "")) := by
  constructor
  · intro f
    by_cases h1 : pyStrip f.nameText = ""
    · simp [toolValidateForm, h1]
    · by_cases h2 : ' ' ∈ (pyStrip f.nameText).data
      · simp [toolValidateForm, h1, h2]
      · by_cases h3 : f.commandText = "" <;>
          simp [toolValidateForm, h1, h2, h3]
  · intro f
    by_cases h1 : f.hooktypeText ∈ hooktypes
    · by_cases h2 : hookNameOk (pyStrip f.nameText) = true
      · by_cases h3 : pyStrip f.commandText = "" <;>
          simp [hookValidateForm, h1, h2, h3]
      · simp [hookValidateForm, h1, h2]
    · simp [hookValidateForm, h1]

/-- C6: `connectToExistingWorkbench` returns `True` iff it connected and
the peer echoed back exactly the bytes sent; the server side echoes any
received bytes unchanged, so a connected round trip with the in-process
server always acknowledges. -/
theorem connectToExistingWorkbench_spec :
    (∀ (root : List Nat) (revset : Option (List Nat))
       (connected : Bool) (reply : List Nat),
      connectToExistingWorkbench root revset connected reply = true ↔
        (connected = true ∧ connectData root revset = reply)) ∧
    (∀ data : List Nat, serverReply data = data) ∧
    (∀ (root : List Nat) (revset : Option (List Nat)),
      connectToExistingWorkbench root revset true
        (serverReply (connectData root revset)) = true) := by
  refine ⟨?_, fun _ => rfl, ?_⟩
  · intro root revset connected reply
    simp [connectToExistingWorkbench, Bool.and_eq_true, beq_iff_eq]
  · intro root revset
    show (true && (connectData root revset == connectData root revset)) = true
    simp

/-- C10: `removeRows(row, count)` returns `True`, keeps exactly
`cs[:row] + cs[row+count:]` in order, renumbers the kept children
`0, 1, 2, …`, and detaches `cs[row:row+count]` with `_row = 0` and
`_parent = None`. -/
theorem removeRows_spec (cs : List RItemRef) (row count : Nat) :
    (removeRows cs row count).2.2 = true ∧
    ((removeRows cs row count).1.map RItemRef.ident =
      (cs.take row ++ cs.drop (row + count)).map RItemRef.ident) ∧
    ((removeRows cs row count).1.map RItemRef.rowFld =
      List.range (cs.take row ++ cs.drop (row + count)).length) ∧
    ((removeRows cs row count).2.1.map RItemRef.ident =
      ((cs.drop row).take count).map RItemRef.ident) ∧
    ((removeRows cs row count).2.1.map RItemRef.rowFld =
      List.replicate ((cs.drop row).take count).length 0) ∧
    ((removeRows cs row count).2.1.map RItemRef.parentFld =
      List.replicate ((cs.drop row).take count).length none) := by
  unfold removeRows
  refine ⟨rfl, ?_, ?_, ?_, ?_, ?_⟩
  · rw [List.map_map]
    have h : (RItemRef.ident ∘ fun ic : Nat × RItemRef =>
        { ic.2 with rowFld := ic.1 }) = RItemRef.ident ∘ Prod.snd := rfl
    rw [h, ← List.map_map, List.enum_map_snd]
  · rw [List.map_map]
    have h : (RItemRef.rowFld ∘ fun ic : Nat × RItemRef =>
        { ic.2 with rowFld := ic.1 }) = Prod.fst := rfl
    rw [h, List.enum_map_fst]
  · rw [List.map_map]
    have h : (RItemRef.ident ∘ fun c : RItemRef =>
        { c with rowFld := 0, parentFld := none }) = RItemRef.ident := rfl
    rw [h]
  · rw [List.map_map]
    have h : (RItemRef.rowFld ∘ fun c : RItemRef =>
        { c with rowFld := 0, parentFld := none }) = fun _ => 0 := rfl
    rw [h, List.map_const']
  · rw [List.map_map]
    have h : (RItemRef.parentFld ∘ fun c : RItemRef =>
        { c with rowFld := 0, parentFld := none }) = fun _ => none := rfl
    rw [h, List.map_const']

/-! ### hgignore.py lemmas -/

theorem effectivePairs_append (xs ys : List String) (cur : Option PatKind) :
    effectivePairs (xs ++ ys) cur =
      effectivePairs xs cur ++ effectivePairs ys (kindAfter xs cur) := by
  induction xs generalizing cur with
  | nil => rfl
  | cons l ls ih =>
    by_cases h : isSyntaxHeaderLine l = true <;>
      simp [effectivePairs, kindAfter, h, ih]

theorem kindAfter_append (xs ys : List String) (cur : Option PatKind) :
    kindAfter (xs ++ ys) cur = kindAfter ys (kindAfter xs cur) := by
  induction xs generalizing cur with
  | nil => rfl
  | cons l ls ih =>
    by_cases h : isSyntaxHeaderLine l = true <;> simp [kindAfter, h, ih]

theorem kindAfter_no_header (xs : List String) (cur : Option PatKind)
    (h : ∀ x ∈ xs, isSyntaxHeaderLine x = false) : kindAfter xs cur = cur := by
  induction xs with
  | nil => rfl
  | cons l ls ih =>
    have hl := h l (by simp)
    have hrest : ∀ x ∈ ls, isSyntaxHeaderLine x = false :=
      fun x hx => h x (by simp [hx])
    simp [kindAfter, hl, ih hrest]

theorem insertIdx_split {α : Type} (a : α) :
    ∀ (n : Nat) (l : List α), n ≤ l.length →
      List.insertIdx n a l = l.take n ++ a :: l.drop n
  | 0, l, _ => by simp
  | n + 1, [], h => by simp at h
  | n + 1, x :: xs, h => by
    simp only [List.insertIdx_succ_cons, List.take_succ_cons,
      List.drop_succ_cons, List.cons_append]
    rw [insertIdx_split a n xs (by simpa using h)]

theorem headerFor_is_header (isregexp : Bool) :
    isSyntaxHeaderLine (headerFor isregexp) = true := by
  cases isregexp <;> decide

theorem headerKind_headerFor (isregexp : Bool) :
    headerKind (headerFor isregexp) = some (patKindOf isregexp) := by
  cases isregexp <;> decide

theorem kindAfter_to_header (lines : List String) (init : Option PatKind)
    (isregexp : Bool) (l : Nat) (hl : l < lines.length)
    (hget : lines[l] = headerFor isregexp) :
    kindAfter (lines.take (l + 1)) init = some (patKindOf isregexp) := by
  have ht : lines.take (l + 1) = lines.take l ++ [headerFor isregexp] := by
    rw [List.take_succ, List.getElem?_eq_getElem hl, hget]
    rfl
  rw [ht, kindAfter_append]
  simp [kindAfter, headerFor_is_header, headerKind_headerFor]

theorem effectivePairs_insertFilters_perm (lines : List String) (pat : String)
    (isregexp : Bool) (hpat : isSyntaxHeaderLine pat = false)
    (init : Option PatKind) :
    (effectivePairs (insertFilters lines [pat] isregexp) init).Perm
      ((some (patKindOf isregexp), pat) :: effectivePairs lines init) := by
  unfold insertFilters
  split
  next l hidx =>
    have hfix : lines.findIdx? (· == headerFor isregexp) = some l := hidx
    rw [List.findIdx?_eq_some_iff_getElem] at hfix
    obtain ⟨hl, hbeq, -⟩ := hfix
    have hget : lines[l] = headerFor isregexp := by
      simpa using hbeq
    split
    next i hfind =>
      rw [List.findIdx?_eq_some_iff_getElem] at hfind
      obtain ⟨hi, -, hprev⟩ := hfind
      have hlen : l + i + 1 ≤ lines.length := by
        rw [List.length_drop] at hi
        omega
      have hins : insertAllAt lines (l + i + 1) [pat]
          = List.insertIdx (l + i + 1) pat lines := rfl
      rw [hins, insertIdx_split pat (l + i + 1) lines hlen]
      have hA : kindAfter (lines.take (l + i + 1)) init
          = some (patKindOf isregexp) := by
        have : l + i + 1 = (l + 1) + i := by omega
        rw [this, List.take_add, kindAfter_append,
          kindAfter_to_header lines init isregexp l hl hget]
        apply kindAfter_no_header
        intro x hx
        rw [List.mem_iff_getElem] at hx
        obtain ⟨j, hj, rfl⟩ := hx
        rw [List.getElem_take]
        have hji : j < i := by
          have := List.length_take_le i (lines.drop (l + 1))
          omega
        have := hprev j hji
        simpa using this
      rw [effectivePairs_append, hA]
      have hc : effectivePairs (pat :: lines.drop (l + i + 1))
            (some (patKindOf isregexp))
          = (some (patKindOf isregexp), pat)
              :: effectivePairs (lines.drop (l + i + 1))
                  (some (patKindOf isregexp)) := by
        simp [effectivePairs, hpat]
      rw [hc]
      conv_rhs =>
        rw [← List.take_append_drop (l + i + 1) lines,
          effectivePairs_append, hA]
      exact List.perm_middle
    next hfind =>
      rw [List.findIdx?_eq_none_iff] at hfind
      have hka : kindAfter lines init = some (patKindOf isregexp) := by
        conv_lhs => rw [← List.take_append_drop (l + 1) lines]
        rw [kindAfter_append,
          kindAfter_to_header lines init isregexp l hl hget]
        exact kindAfter_no_header _ _ hfind
      rw [effectivePairs_append, hka]
      have hc : effectivePairs [pat] (some (patKindOf isregexp))
          = [(some (patKindOf isregexp), pat)] := by
        simp [effectivePairs, hpat]
      rw [hc]
      exact List.perm_append_singleton _ _
  next hidx =>
    rw [List.append_assoc, effectivePairs_append]
    have hc : effectivePairs ([headerFor isregexp] ++ [pat])
          (kindAfter lines init)
        = [(some (patKindOf isregexp), pat)] := by
      simp [effectivePairs, headerFor_is_header, headerKind_headerFor, hpat]
    rw [hc]
    exact List.perm_append_singleton _ _

theorem pyReadlinesAux_split (ys : List Char) :
    ∀ (xs acc : List Char), (∀ c ∈ xs, c ≠ '\n') →
      pyReadlinesAux (xs ++ '\n' :: ys) acc
        = (acc.reverse ++ xs ++ ['\n']) :: pyReadlinesAux ys [] := by
  intro xs
  induction xs with
  | nil =>
    intro acc h
    simp [pyReadlinesAux]
  | cons c cs ih =>
    intro acc h
    have hc : c ≠ '\n' := h c (by simp)
    simp only [List.cons_append, pyReadlinesAux, if_neg hc, List.append_eq]
    rw [ih (c :: acc) (fun x hx => h x (by simp [hx]))]
    simp

theorem data_writeIgnoreFile (d : Bool) (l0 : String) (rest : List String) :
    ∃ s, (writeIgnoreFile d (l0 :: rest)).data
      = l0.data ++ (if d then "\r\n" else "\n").data ++ s := by
  cases rest with
  | nil =>
    refine ⟨[], ?_⟩
    show (pyJoin _ [l0] ++ _).data = _
    simp [pyJoin]
  | cons y ys =>
    refine ⟨(pyJoin (if d then "\r\n" else "\n") (y :: ys)).data
      ++ (if d then "\r\n" else "\n").data, ?_⟩
    show (pyJoin _ (l0 :: y :: ys) ++ _).data = _
    simp [pyJoin]

theorem pyReadlines_head (d : Bool) (l0 : String) (rest : List String)
    (hn : '\n' ∉ l0.data) :
    ∃ tl, pyReadlines (writeIgnoreFile d (l0 :: rest))
      = (⟨l0.data ++ (if d then "\r\n" else "\n").data⟩ : String) :: tl := by
  obtain ⟨s, hs⟩ := data_writeIgnoreFile d l0 rest
  refine ⟨(pyReadlinesAux s []).map (fun l => ⟨l⟩), ?_⟩
  unfold pyReadlines
  rw [hs]
  cases d with
  | false =>
    rw [if_neg (by decide)]
    have h1 : l0.data ++ ("\n").data ++ s = l0.data ++ '\n' :: s := by simp
    rw [h1, pyReadlinesAux_split s l0.data []
      (fun c hc => ne_of_mem_of_not_mem hc hn)]
    simp
  | true =>
    rw [if_pos rfl]
    have h1 : l0.data ++ ("\r\n").data ++ s
        = (l0.data ++ ['\r']) ++ '\n' :: s := by simp
    rw [h1, pyReadlinesAux_split s (l0.data ++ ['\r']) [] ?hc]
    · simp
    case hc =>
      intro c hc
      rcases List.mem_append.mp hc with h | h
      · exact ne_of_mem_of_not_mem h hn
      · simp only [List.mem_singleton] at h
        subst h
        decide

/-- C5: inserting a pattern already present under the same syntax header
leaves the effective (syntax, pattern) set unchanged; the CRLF flag read
by `refresh` defaults to the platform on empty/unreadable files, and a
file written with style `d` reads back with style `d` (so appending
preserves the pre-existing line-ending style). -/
theorem hgignore_spec :
    (∀ (lines : List String) (pat : String) (isregexp : Bool),
      isSyntaxHeaderLine pat = false →
      (some (patKindOf isregexp), pat) ∈
        effectivePairs lines (some PatKind.regexp) →
      (effectivePairs (insertFilters lines [pat] isregexp)
          (some PatKind.regexp)).toFinset
        = (effectivePairs lines (some PatKind.regexp)).toFinset) ∧
    (∀ w : Bool, refreshDoseoln none w = w ∧ refreshDoseoln (some []) w = w) ∧
    (∀ (d w : Bool) (l0 : String) (rest : List String),
      '\n' ∉ l0.data → '\r' ∉ l0.data →
      refreshDoseoln (some (pyReadlines (writeIgnoreFile d (l0 :: rest)))) w
        = d) := by
  refine ⟨?_, fun w => ⟨rfl, rfl⟩, ?_⟩
  · intro lines pat isregexp hpat hmem
    rw [List.toFinset_eq_of_perm _ _
      (effectivePairs_insertFilters_perm lines pat isregexp hpat _),
      List.toFinset_cons]
    exact Finset.insert_eq_self.mpr (List.mem_toFinset.mpr hmem)
  · intro d w l0 rest hn hr
    obtain ⟨tl, htl⟩ := pyReadlines_head d l0 rest hn
    rw [htl]
    show ("\r\n").data.isSuffixOf (l0.data ++ (if d then "\r\n" else "\n").data)
      = d
    cases d with
    | true =>
      rw [if_pos rfl]
      rw [List.isSuffixOf_iff_suffix]
      exact ⟨l0.data, rfl⟩
    | false =>
      rw [if_neg (by decide)]
      rw [Bool.eq_false_iff]
      intro hsuf
      obtain ⟨t, ht⟩ := List.isSuffixOf_iff_suffix.mp hsuf
      have ht' : (t ++ ['\r']) ++ ['\n'] = l0.data ++ ['\n'] := by
        simpa [List.append_assoc] using ht
      have ht2 := List.append_cancel_right ht'
      exact hr (by rw [← ht2]; simp)

/-- C5 witness: a concrete instantiation of both halves of
`hgignore_spec`. -/
theorem hgignore_spec_witness :
    (effectivePairs (insertFilters ["syntax: glob", "foo"] ["foo"] false)
        (some PatKind.regexp)).toFinset
      = (effectivePairs ["syntax: glob", "foo"]
          (some PatKind.regexp)).toFinset ∧
    refreshDoseoln (some (pyReadlines (writeIgnoreFile true ["foo", "bar"])))
        false = true :=
  ⟨hgignore_spec.1 ["syntax: glob", "foo"] "foo" false (by decide) (by decide),
   hgignore_spec.2.2 true false "foo" ["bar"] (by decide) (by decide)⟩

/-! ### repotreeitem.py virtual-path lemmas -/

theorem isDigit_ne (c : Char) (h : c.isDigit = true) :
    c ≠ '/' ∧ c ≠ '#' ∧ c ≠ '-' := by
  refine ⟨?_, ?_, ?_⟩ <;> intro hEq <;> subst hEq <;>
    exact absurd h (by decide)

theorem digitChar_isDigit (d : Nat) (h : d < 10) :
    (Char.ofNat ('0'.toNat + d)).isDigit = true := by
  interval_cases d <;> decide

theorem digitChar_val (d : Nat) (h : d < 10) :
    (Char.ofNat ('0'.toNat + d)).toNat - '0'.toNat = d := by
  interval_cases d <;> decide

theorem digitsVal_append_one (xs : List Char) (c : Char) :
    digitsVal (xs ++ [c]) = 10 * digitsVal xs + (c.toNat - '0'.toNat) := by
  unfold digitsVal
  rw [List.foldl_append]
  rfl

theorem natDigitsAux_spec : ∀ (fuel n : Nat), n < fuel →
    natDigitsAux fuel n ≠ [] ∧
    (∀ c ∈ natDigitsAux fuel n, c.isDigit = true) ∧
    digitsVal (natDigitsAux fuel n) = n := by
  intro fuel
  induction fuel with
  | zero => intro n h; omega
  | succ f ih =>
    intro n h
    by_cases h10 : n < 10
    · unfold natDigitsAux
      rw [if_pos h10]
      refine ⟨by simp, ?_, ?_⟩
      · intro c hc
        simp only [List.mem_singleton] at hc
        subst hc
        exact digitChar_isDigit n h10
      · show digitsVal ([] ++ [Char.ofNat ('0'.toNat + n)]) = n
        rw [digitsVal_append_one, digitChar_val n h10]
        simp [digitsVal]
    · unfold natDigitsAux
      rw [if_neg h10]
      have hdiv : n / 10 < f :=
        lt_of_lt_of_le (Nat.div_lt_self (by omega) (by omega)) (by omega)
      obtain ⟨hne, hdig, hval⟩ := ih (n / 10) hdiv
      refine ⟨by simp, ?_, ?_⟩
      · intro c hc
        rcases List.mem_append.mp hc with h1 | h1
        · exact hdig c h1
        · simp only [List.mem_singleton] at h1
          subst h1
          exact digitChar_isDigit _ (Nat.mod_lt _ (by omega))
      · rw [digitsVal_append_one, hval, digitChar_val _ (Nat.mod_lt _ (by omega))]
        omega

theorem natToDecimal_spec (n : Nat) :
    (natToDecimal n).data ≠ [] ∧
    (∀ c ∈ (natToDecimal n).data, c.isDigit = true) ∧
    digitsVal ((natToDecimal n).data) = n :=
  natDigitsAux_spec (n + 1) n (by omega)

theorem quotename_no_slash (s : String) : '/' ∉ (quotename s).data := by
  intro hc
  simp only [quotename] at hc
  rw [List.mem_flatMap] at hc
  obtain ⟨a, -, hc⟩ := hc
  unfold quoteChar at hc
  split_ifs at hc with h1 h2 h3
  · exact absurd hc (by decide)
  · exact absurd hc (by decide)
  · exact absurd hc (by decide)
  · simp only [List.mem_singleton] at hc
    exact h2 hc.symm

theorem quotename_no_hash (s : String) : '#' ∉ (quotename s).data := by
  intro hc
  simp only [quotename] at hc
  rw [List.mem_flatMap] at hc
  obtain ⟨a, -, hc⟩ := hc
  unfold quoteChar at hc
  split_ifs at hc with h1 h2 h3
  · exact absurd hc (by decide)
  · exact absurd hc (by decide)
  · exact absurd hc (by decide)
  · simp only [List.mem_singleton] at hc
    exact h3 hc.symm

theorem seg_no_slash (q : String) (hq : '/' ∉ q.data) (k : Nat) :
    '/' ∉ (if k = 0 then q else q ++ "#" ++ natToDecimal k).data := by
  by_cases hk : k = 0
  · rw [if_pos hk]; exact hq
  · rw [if_neg hk]
    intro hc
    rcases List.mem_append.mp hc with h1 | h1
    · rcases List.mem_append.mp h1 with h2 | h2
      · exact hq h2
      · exact absurd h2 (by decide)
    · exact (isDigit_ne _ ((natToDecimal_spec k).2.1 _ h1)).1 rfl

theorem foldr_splitStep_no_slash :
    ∀ (xs : List Char) (g : List Char) (gs : List (List Char)),
      (∀ c ∈ xs, c ≠ '/') →
      xs.foldr splitStep (g :: gs) = (xs ++ g) :: gs := by
  intro xs
  induction xs with
  | nil => intro g gs _; rfl
  | cons c cs ih =>
    intro g gs h
    have hc : c ≠ '/' := h c (by simp)
    simp only [List.foldr_cons]
    rw [ih g gs (fun x hx => h x (by simp [hx]))]
    simp [splitStep, hc]

theorem pySplit_join_aux :
    ∀ (xs : List String) (x : String),
      (∀ s ∈ x :: xs, '/' ∉ s.data) →
      (pyJoin "/" (x :: xs)).data.foldr splitStep [[]]
        = (x :: xs).map String.data := by
  intro xs
  induction xs with
  | nil =>
    intro x h
    show x.data.foldr splitStep ([] :: []) = [x.data]
    rw [foldr_splitStep_no_slash x.data [] []
      (fun c hc hEq => (h x (by simp)) (hEq ▸ hc))]
    simp
  | cons y ys ih =>
    intro x h
    have hx : '/' ∉ x.data := h x (by simp)
    have hdata : (pyJoin "/" (x :: y :: ys)).data
        = x.data ++ '/' :: (pyJoin "/" (y :: ys)).data := by
      show (x.data ++ "/".data) ++ (pyJoin "/" (y :: ys)).data = _
      simp
    show (pyJoin "/" (x :: y :: ys)).data.foldr splitStep [[]] = _
    rw [hdata, List.foldr_append]
    have hmid : ('/' :: (pyJoin "/" (y :: ys)).data).foldr splitStep [[]]
        = [] :: (pyJoin "/" (y :: ys)).data.foldr splitStep [[]] := by
      simp [splitStep]
    rw [hmid, ih y (fun s hs => h s (by simp at hs ⊢; tauto))]
    rw [foldr_splitStep_no_slash x.data [] _
      (fun c hc hEq => hx (hEq ▸ hc))]
    simp

theorem pySplitSlash_pyJoin (x : String) (xs : List String)
    (h : ∀ s ∈ x :: xs, '/' ∉ s.data) :
    pySplitSlash (pyJoin "/" (x :: xs)) = x :: xs := by
  unfold pySplitSlash
  rw [pySplit_join_aux xs x h, List.map_map]
  have hid : ((fun l => (⟨l⟩ : String)) ∘ String.data) = id :=
    funext fun s => rfl
  rw [hid, List.map_id]

theorem filter_getElem_countP {α : Type} (p : α → Bool) :
    ∀ (l : List α) (i : Nat) (h : i < l.length), p l[i] = true →
      (l.filter p)[(l.take i).countP p]? = some l[i] := by
  intro l
  induction l with
  | nil => intro i h; simp at h
  | cons a as ih =>
    intro i h hp
    cases i with
    | zero =>
      simp only [List.getElem_cons_zero] at hp ⊢
      simp [List.filter_cons, hp]
    | succ n =>
      have hn : n < as.length := by simpa using h
      simp only [List.getElem_cons_succ] at hp ⊢
      by_cases hpa : p a = true
      · simp only [List.take_succ_cons, List.countP_cons, hpa, if_pos,
          List.filter_cons_of_pos hpa]
        show (a :: as.filter p)[(as.take n).countP p + 1]? = some as[n]
        rw [List.getElem?_cons_succ]
        exact ih n hn hp
      · simp only [List.take_succ_cons, List.countP_cons, hpa,
          List.filter_cons_of_neg (by simpa using hpa)]
        show (as.filter p)[(as.take n).countP p + 0]? = some as[n]
        rw [Nat.add_zero]
        exact ih n hn hp

theorem parseIntOpt_digits (ds : List Char) (hne : ds ≠ [])
    (hd : ∀ c ∈ ds, c.isDigit = true) :
    parseIntOpt ⟨ds⟩ = some ((digitsVal ds : Int)) := by
  cases ds with
  | nil => exact absurd rfl hne
  | cons c cs =>
    have hc : c.isDigit = true := hd c (by simp)
    have hcm : c ≠ '-' := (isDigit_ne c hc).2.2
    show (if c = '-' then _ else
      if (c :: cs).all Char.isDigit then
        some ((digitsVal (c :: cs) : Int)) else none) = _
    rw [if_neg hcm, if_pos (by rw [List.all_eq_true]; exact hd)]

theorem rfindIdx_none (s : String) (c : Char) (h : c ∉ s.data) :
    rfindIdx s c = none := by
  unfold rfindIdx
  have hf : s.data.reverse.findIdx? (fun x => x == c) = none := by
    rw [List.findIdx?_eq_none_iff]
    intro x hx
    have hne : x ≠ c := fun hEq => h (hEq ▸ List.mem_reverse.mp hx)
    simp [hne]
  rw [hf]

theorem rfindIdx_sep (q ds : List Char) (hq : '#' ∉ ds) :
    rfindIdx ⟨q ++ '#' :: ds⟩ '#' = some q.length := by
  unfold rfindIdx
  have hrev : (q ++ '#' :: ds).reverse = ds.reverse ++ '#' :: q.reverse := by
    simp
  have hf : (q ++ '#' :: ds).reverse.findIdx? (fun x => x == '#')
      = some ds.length := by
    rw [hrev, List.findIdx?_append]
    have h1 : ds.reverse.findIdx? (fun x => x == '#') = none := by
      rw [List.findIdx?_eq_none_iff]
      intro x hx
      have hne : x ≠ '#' := fun hEq => hq (hEq ▸ List.mem_reverse.mp hx)
      simp [hne]
    have h2 : ('#' :: q.reverse).findIdx? (fun x => x == '#') = some 0 := by
      simp [List.findIdx?_cons]
    rw [h1, h2]
    simp
  show (match (q ++ '#' :: ds).reverse.findIdx? (fun x => x == '#') with
    | some j => some ((q ++ '#' :: ds).length - 1 - j)
    | none => none) = some q.length
  rw [hf]
  simp only [List.length_append, List.length_cons, Option.some.injEq]
  omega

theorem parseSeg_nohash (q : String) (hq : '#' ∉ q.data) :
    parseSeg q = .ok (q, 0) := by
  unfold parseSeg
  rw [rfindIdx_none q '#' hq]

theorem parseSeg_hash (q : String) (n : Nat) :
    parseSeg ⟨q.data ++ '#' :: (natToDecimal n).data⟩ = .ok (q, (n : Int)) := by
  obtain ⟨hne, hdig, hval⟩ := natToDecimal_spec n
  unfold parseSeg
  rw [rfindIdx_sep q.data (natToDecimal n).data
    (fun hc => (isDigit_ne _ (hdig _ hc)).2.1 rfl)]
  have hdrop : (q.data ++ '#' :: (natToDecimal n).data).drop (q.data.length + 1)
      = (natToDecimal n).data := by
    rw [show q.data ++ '#' :: (natToDecimal n).data
        = (q.data ++ ['#']) ++ (natToDecimal n).data by simp]
    rw [show q.data.length + 1 = (q.data ++ ['#']).length by simp]
    exact List.drop_left _ _
  have htake : (q.data ++ '#' :: (natToDecimal n).data).take q.data.length
      = q.data := List.take_left _ _
  show (match parseIntOpt ⟨(q.data ++ '#' :: (natToDecimal n).data).drop
      (q.data.length + 1)⟩ with
    | some i => Except.ok ((⟨(q.data ++ '#' :: (natToDecimal n).data).take
        q.data.length⟩ : String), i)
    | none => Except.error FindErr.invalid) = Except.ok (q, (n : Int))
  rw [hdrop, htake, parseIntOpt_digits _ hne hdig, hval]

theorem itempathAux_no_slash :
    ∀ (pos : List Nat) (t : RNode) (segs : List String),
      itempathAux t pos = some segs → ∀ s ∈ segs, '/' ∉ s.data := by
  intro pos
  induction pos with
  | nil =>
    intro t segs h s hs
    simp only [itempathAux, Option.some.injEq] at h
    subst h
    simp at hs
  | cons i is ih =>
    intro t segs h s hs
    simp only [itempathAux] at h
    split at h
    · cases h
    next c heq =>
      split at h
      · cases h
      next rest hrest =>
        simp only [Option.some.injEq] at h
        subst h
        rcases List.mem_cons.mp hs with rfl | hs'
        · exact seg_no_slash _ (quotename_no_slash _) _
        · exact ih c rest hrest s hs'

theorem findSegs_of_itempathAux :
    ∀ (pos : List Nat) (t u : RNode) (segs : List String),
      subtreeAt? t pos = some u → itempathAux t pos = some segs →
      findSegs t segs = .ok u := by
  intro pos
  induction pos with
  | nil =>
    intro t u segs h1 h2
    simp only [subtreeAt?, Option.some.injEq] at h1
    simp only [itempathAux, Option.some.injEq] at h2
    subst h1; subst h2
    rfl
  | cons i is ih =>
    intro t u segs h1 h2
    simp only [itempathAux] at h2
    split at h2
    · cases h2
    next c heq =>
      split at h2
      · cases h2
      next rest hrest =>
        simp only [Option.some.injEq] at h2
        subst h2
        simp only [subtreeAt?] at h1
        rw [heq] at h1
        have hib : i < (childsOf t).length := by
          rcases List.getElem?_eq_some.mp heq with ⟨hlt, -⟩
          exact hlt
        have hget : (childsOf t)[i] = c := by
          rcases List.getElem?_eq_some.mp heq with ⟨hlt, hEq⟩
          exact hEq
        have hparse : parseSeg
            (if ((childsOf t).take i).countP
                (hasQName (quotename (shortnameOf c))) = 0 then
              quotename (shortnameOf c)
            else quotename (shortnameOf c) ++ "#" ++
              natToDecimal (((childsOf t).take i).countP
                (hasQName (quotename (shortnameOf c)))))
            = .ok (quotename (shortnameOf c),
                ((((childsOf t).take i).countP
                  (hasQName (quotename (shortnameOf c)))) : Int)) := by
          by_cases hk : ((childsOf t).take i).countP
              (hasQName (quotename (shortnameOf c))) = 0
          · rw [if_pos hk, hk, parseSeg_nohash _ (quotename_no_hash _)]
            rfl
          · rw [if_neg hk]
            have hstr : quotename (shortnameOf c) ++ "#" ++
                natToDecimal (((childsOf t).take i).countP
                  (hasQName (quotename (shortnameOf c))))
                = ⟨(quotename (shortnameOf c)).data ++ '#' ::
                    (natToDecimal (((childsOf t).take i).countP
                      (hasQName (quotename (shortnameOf c))))).data⟩ :=
              congrArg String.mk (List.append_assoc _ _ _)
            rw [hstr, parseSeg_hash]
        show (match parseSeg _ with
          | .error e => Except.error e
          | .ok (qn, j) =>
            match pyIndex (sameNamed (childsOf t) qn) j with
            | some cc => findSegs cc rest
            | none => Except.error FindErr.notfound) = Except.ok u
        rw [hparse]
        show (match pyIndex
            (sameNamed (childsOf t) (quotename (shortnameOf c)))
            ((((childsOf t).take i).countP
              (hasQName (quotename (shortnameOf c)))) : Int) with
          | some cc => findSegs cc rest
          | none => Except.error FindErr.notfound) = Except.ok u
        have hpy : pyIndex
            (sameNamed (childsOf t) (quotename (shortnameOf c)))
            ((((childsOf t).take i).countP
              (hasQName (quotename (shortnameOf c)))) : Int) = some c := by
          unfold pyIndex
          rw [if_pos (by positivity)]
          rw [Int.toNat_natCast]
          unfold sameNamed
          have hp : hasQName (quotename (shortnameOf c)) ((childsOf t)[i])
              = true := by
            rw [hget]
            simp [hasQName]
          have := filter_getElem_countP
            (hasQName (quotename (shortnameOf c))) (childsOf t) i hib hp
          rw [hget] at this
          exact this
        rw [hpy]
        exact ih c u rest h1 hrest

/-- C1 (counterexample): for a first-level item whose quoted shortname is
empty (here a group named `""`), `itempath` generates the path `""`,
which `findbyitempath` resolves to the root item rather than the group:
the round trip does not return the same item. -/
theorem itempath_empty_name_counterexample :
    subtreeAt? (RNode.treeitem [RNode.group "" []]) [0]
        = some (RNode.group "" []) ∧
    itempath (RNode.treeitem [RNode.group "" []]) [0] = some "" ∧
    findbyitempath (RNode.treeitem [RNode.group "" []]) ""
        = .ok (RNode.treeitem [RNode.group "" []]) ∧
    RNode.treeitem [RNode.group "" []] ≠ RNode.group "" [] :=
  ⟨rfl, rfl, rfl, fun h => RNode.noConfusion h⟩

/-- C1 (amended): for every forest and every item in it whose generated
virtual path is non-empty, `findbyitempath` applied to `itempath` of the
item returns that same item (duplicate sibling names included, via the
`#index` suffix); the empty path maps to the root; and a `#n` index
suffix that is out of range for the siblings with the given quoted name
yields the not-found error. -/
theorem itempath_findbyitempath_spec :
    (∀ (root t : RNode) (pos : List Nat) (p : String),
      subtreeAt? root pos = some t → itempath root pos = some p → p ≠ "" →
      findbyitempath root p = .ok t) ∧
    (∀ root : RNode, findbyitempath root "" = .ok root) ∧
    (∀ (root : RNode) (q : String) (n : Nat),
      (∀ c ∈ q.data, c ≠ '/') →
      (sameNamed (childsOf root) q).length ≤ n →
      findbyitempath root ⟨q.data ++ '#' :: (natToDecimal n).data⟩ =
        .error FindErr.notfound) := by
  refine ⟨?_, fun root => rfl, ?_⟩
  · intro root t pos p hpos hpath hne
    unfold itempath at hpath
    cases hsegs : itempathAux root pos with
    | none => rw [hsegs] at hpath; cases hpath
    | some segs =>
      rw [hsegs] at hpath
      have hpath' : pyJoin "/" segs = p := Option.some.inj hpath
      cases segs with
      | nil => exact absurd hpath'.symm hne
      | cons s ss =>
        subst hpath'
        unfold findbyitempath
        rw [if_neg hne]
        rw [pySplitSlash_pyJoin s ss (itempathAux_no_slash pos root _ hsegs)]
        exact findSegs_of_itempathAux pos root t (s :: ss) hpos hsegs
  · intro root q n hq hlen
    have hdig := (natToDecimal_spec n).2.1
    have hpne : (⟨q.data ++ '#' :: (natToDecimal n).data⟩ : String) ≠ "" := by
      intro hEq
      have : q.data ++ '#' :: (natToDecimal n).data = [] :=
        congrArg String.data hEq
      simp at this
    unfold findbyitempath
    rw [if_neg hpne]
    have hsplit : pySplitSlash ⟨q.data ++ '#' :: (natToDecimal n).data⟩
        = [⟨q.data ++ '#' :: (natToDecimal n).data⟩] := by
      unfold pySplitSlash
      rw [foldr_splitStep_no_slash _ [] [] ?hnos]
      · simp
      case hnos =>
        intro c hc
        rcases List.mem_append.mp hc with h1 | h1
        · exact hq c h1
        · rcases List.mem_cons.mp h1 with rfl | h2
          · decide
          · exact (isDigit_ne _ (hdig _ h2)).1
    rw [hsplit]
    show (match parseSeg ⟨q.data ++ '#' :: (natToDecimal n).data⟩ with
      | .error e => Except.error e
      | .ok (qn, j) =>
        match pyIndex (sameNamed (childsOf root) qn) j with
        | some cc => findSegs cc []
        | none => Except.error FindErr.notfound) = Except.error FindErr.notfound
    rw [parseSeg_hash q n]
    show (match pyIndex (sameNamed (childsOf root) q) ((n : Nat) : Int) with
      | some cc => findSegs cc []
      | none => Except.error FindErr.notfound) = Except.error FindErr.notfound
    have hpy : pyIndex (sameNamed (childsOf root) q) ((n : Nat) : Int)
        = none := by
      unfold pyIndex
      rw [if_pos (by positivity), Int.toNat_natCast]
      exact List.getElem?_eq_none hlen
    rw [hpy]

/-- C1 witness: the round trip on a forest with duplicate sibling names,
and an out-of-range index on the same forest. -/
theorem itempath_findbyitempath_witness :
    findbyitempath
        (RNode.treeitem [RNode.group "foo" [], RNode.group "foo" []])
        "foo#1"
      = .ok (RNode.group "foo" []) ∧
    findbyitempath
        (RNode.treeitem [RNode.group "foo" [], RNode.group "foo" []])
        ⟨("foo").data ++ '#' :: (natToDecimal 2).data⟩
      = .error FindErr.notfound :=
  ⟨itempath_findbyitempath_spec.1 _ _ [1] "foo#1" rfl rfl (by decide),
   itempath_findbyitempath_spec.2.2 _ "foo" 2 (by decide) (by decide)⟩

/-! ### status.py partials lemmas -/

theorem dictGet?_dictSet_self {β : Type} (d : List (String × β))
    (k : String) (v : β) : dictGet? (dictSet d k v) k = some v := by
  induction d with
  | nil => simp [dictSet, dictGet?]
  | cons e d ih =>
    by_cases h : e.1 = k
    · simp [dictSet, dictGet?, h]
    · simp only [dictSet, dictGet?, beq_iff_eq, if_neg h]
      exact ih

theorem dictGet?_dictSet_ne {β : Type} (d : List (String × β))
    (k : String) (v : β) (f : String) (h : f ≠ k) :
    dictGet? (dictSet d k v) f = dictGet? d f := by
  induction d with
  | nil => simp [dictSet, dictGet?, Ne.symm h]
  | cons e d ih =>
    by_cases he : e.1 = k
    · subst he
      simp [dictSet, dictGet?, Ne.symm h]
    · simp only [dictSet, beq_iff_eq, if_neg he, dictGet?]
      by_cases hf : e.1 = f <;> simp [hf, ih]

theorem dictGet?_dictDel_ne {β : Type} (d : List (String × β))
    (k f : String) (h : f ≠ k) :
    dictGet? (dictDel d k) f = dictGet? d f := by
  induction d with
  | nil => rfl
  | cons e d ih =>
    by_cases he : e.1 = k
    · subst he
      simp [dictDel, dictGet?, Ne.symm h]
    · simp only [dictDel, beq_iff_eq, if_neg he, dictGet?]
      by_cases hf : e.1 = f <;> simp [hf, ih]

theorem dictGet?_eq_none_of_not_key {β : Type} (d : List (String × β))
    (k : String) (h : k ∉ d.map Prod.fst) : dictGet? d k = none := by
  induction d with
  | nil => rfl
  | cons e d ih =>
    simp only [List.map_cons, List.mem_cons, not_or] at h
    have hne : e.1 ≠ k := fun hEq => h.1 hEq.symm
    simp only [dictGet?, beq_iff_eq, if_neg hne]
    exact ih h.2

theorem dictGet?_dictDel_self {β : Type} (d : List (String × β))
    (k : String) (hnd : (d.map Prod.fst).Nodup) :
    dictGet? (dictDel d k) k = none := by
  induction d with
  | nil => rfl
  | cons e d ih =>
    simp only [List.map_cons, List.nodup_cons] at hnd
    by_cases he : e.1 = k
    · simp only [dictDel, beq_iff_eq, if_pos he]
      apply dictGet?_eq_none_of_not_key
      rw [← he]
      exact hnd.1
    · simp only [dictDel, beq_iff_eq, if_neg he, dictGet?, if_neg he]
      exact ih hnd.2

theorem dictGet?_filter_keep {β : Type} (p : String × β → Bool)
    (d : List (String × β)) (k : String) (v : β)
    (hget : dictGet? d k = some v) (hp : p (k, v) = true) :
    dictGet? (d.filter p) k = some v := by
  induction d with
  | nil => cases hget
  | cons e d ih =>
    by_cases he : e.1 = k
    · simp only [dictGet?, beq_iff_eq, if_pos he] at hget
      have : e = (k, v) := by
        cases e
        simp_all
      subst this
      simp [List.filter_cons, hp, dictGet?]
    · simp only [dictGet?, beq_iff_eq, if_neg he] at hget
      by_cases hpe : p e = true
      · simp only [List.filter_cons_of_pos hpe, dictGet?, beq_iff_eq,
          if_neg he]
        exact ih hget
      · simp only [List.filter_cons_of_neg (by simpa using hpe)]
        exact ih hget

theorem dictGet?_filter_drop {β : Type} (p : String × β → Bool)
    (d : List (String × β)) (k : String) (v : β)
    (hnd : (d.map Prod.fst).Nodup)
    (hget : dictGet? d k = some v) (hp : p (k, v) = false) :
    dictGet? (d.filter p) k = none := by
  induction d with
  | nil => cases hget
  | cons e d ih =>
    simp only [List.map_cons, List.nodup_cons] at hnd
    by_cases he : e.1 = k
    · simp only [dictGet?, beq_iff_eq, if_pos he] at hget
      have hev : e = (k, v) := by
        cases e
        simp_all
      subst hev
      simp only [List.filter_cons, hp, Bool.false_eq_true, if_neg,
        reduceIte]
      apply dictGet?_eq_none_of_not_key
      intro hmem
      exact hnd.1 (((List.filter_sublist d).map Prod.fst).mem hmem)
    · simp only [dictGet?, beq_iff_eq, if_neg he] at hget
      by_cases hpe : p e = true
      · simp only [List.filter_cons_of_pos hpe, dictGet?, beq_iff_eq,
          if_neg he]
        exact ih hnd.2 hget
      · simp only [List.filter_cons_of_neg (by simpa using hpe)]
        exact ih hnd.2 hget

theorem collapseStep_get_ne (ch : List (String × Bool))
    (e : String × Changes) (f : String) (h : e.1 ≠ f) :
    dictGet? (collapseStep ch e) f = dictGet? ch f := by
  unfold collapseStep
  split_ifs with h1 h2
  · exact dictGet?_dictSet_ne ch e.1 true f (Ne.symm h)
  · exact dictGet?_dictSet_ne ch e.1 false f (Ne.symm h)
  · rfl

theorem collapse_foldl_get_ne :
    ∀ (es : List (String × Changes)) (ch : List (String × Bool))
      (f : String), f ∉ es.map Prod.fst →
      dictGet? (es.foldl collapseStep ch) f = dictGet? ch f := by
  intro es
  induction es with
  | nil => intro ch f _; rfl
  | cons e es ih =>
    intro ch f h
    simp only [List.map_cons, List.mem_cons, not_or] at h
    show dictGet? (es.foldl collapseStep (collapseStep ch e)) f = _
    rw [ih (collapseStep ch e) f h.2,
      collapseStep_get_ne ch e f (fun hEq => h.1 hEq.symm)]

theorem collapse_foldl_get :
    ∀ (es : List (String × Changes)) (ch : List (String × Bool))
      (f : String) (cs : Changes),
      (f, cs) ∈ es → (es.map Prod.fst).Nodup →
      (excludecount cs = 0 ∨ excludecount cs = cs.length) →
      dictGet? (es.foldl collapseStep ch) f
        = some (decide (excludecount cs = 0)) := by
  intro es
  induction es with
  | nil => intro ch f cs h; cases h
  | cons e es ih =>
    intro ch f cs hmem hnd hcol
    simp only [List.map_cons, List.nodup_cons] at hnd
    rcases List.mem_cons.mp hmem with rfl | hmem'
    · show dictGet? (es.foldl collapseStep (collapseStep ch (f, cs))) f = _
      rw [collapse_foldl_get_ne es _ f hnd.1]
      by_cases h0 : excludecount cs = 0
      · simp only [collapseStep, if_pos h0]
        rw [dictGet?_dictSet_self]
        simp [h0]
      · have hlen : excludecount cs = cs.length := by tauto
        simp only [collapseStep, if_neg h0, if_pos hlen]
        rw [dictGet?_dictSet_self]
        simp [h0]
    · exact ih (collapseStep ch e) f cs hmem' hnd.2 hcol

theorem oldStateFor_some (l : Changes)
    (hnd : (l.map Hunk.fromline).Nodup) (oh : Hunk) (hmem : oh ∈ l) :
    oldStateFor l oh.fromline = some oh.excluded := by
  induction l with
  | nil => cases hmem
  | cons a as ih =>
    simp only [List.map_cons, List.nodup_cons] at hnd
    unfold oldStateFor
    rw [List.reverse_cons, List.find?_append]
    rcases List.mem_cons.mp hmem with rfl | hmem'
    · have hnone : as.reverse.find? (fun h => h.fromline == oh.fromline)
          = none := by
        rw [List.find?_eq_none]
        intro x hx
        simp only [beq_iff_eq]
        intro hEq
        exact hnd.1 (hEq ▸ List.mem_map_of_mem Hunk.fromline
          (List.mem_reverse.mp hx))
      rw [hnone]
      simp [List.find?_cons]
    · have := ih hnd.2 hmem'
      unfold oldStateFor at this
      cases hfind : as.reverse.find? (fun h => h.fromline == oh.fromline) with
      | none => rw [hfind] at this; cases this
      | some x =>
        rw [hfind] at this
        simpa using this

theorem oldStateFor_none (l : Changes) (fl : Nat)
    (h : ∀ oh ∈ l, oh.fromline ≠ fl) : oldStateFor l fl = none := by
  unfold oldStateFor
  rw [List.find?_eq_none.mpr]
  · rfl
  · intro x hx
    simp only [beq_iff_eq]
    exact h x (List.mem_reverse.mp hx)

theorem setChunkStates_zip_spec (oldcs : Changes)
    (hnd : (oldcs.map Hunk.fromline).Nodup) :
    ∀ (cs : Changes), ∀ pr ∈ cs.zip (setChunkStates oldcs cs),
      pr.2.fromline = pr.1.fromline ∧
      (∀ oh ∈ oldcs, oh.fromline = pr.1.fromline →
        pr.2.excluded = oh.excluded) ∧
      ((∀ oh ∈ oldcs, oh.fromline ≠ pr.1.fromline) → pr.2 = pr.1) := by
  intro cs
  induction cs with
  | nil => intro pr hpr; cases hpr
  | cons h t ih =>
    intro pr hpr
    simp only [setChunkStates, List.map_cons] at hpr
    rcases List.mem_cons.mp hpr with rfl | hpr'
    · refine ⟨?_, ?_, ?_⟩
      · cases hfind : oldStateFor oldcs h.fromline <;> simp [hfind]
      · intro oh hoh hEq
        rw [show oldStateFor oldcs h.fromline = some oh.excluded from
          hEq ▸ oldStateFor_some oldcs hnd oh hoh]
      · intro hno
        rw [show oldStateFor oldcs h.fromline = none from
          oldStateFor_none oldcs h.fromline hno]
    · exact ih pr hpr'

theorem updatePartials_checked (st : PartState) (wfile : String)
    (changes : Option Changes) :
    (updatePartials st wfile changes).checked = (collapsePass st).checked := by
  cases changes with
  | none => rfl
  | some cs =>
    cases h : dictGet? (collapsePass st).partials wfile with
    | some oldcs => simp only [updatePartials, h]
    | none => simp only [updatePartials, h]

theorem updatePartials_partials_ne (st : PartState) (wfile : String)
    (changes : Option Changes) (f : String) (hne : f ≠ wfile) :
    dictGet? (updatePartials st wfile changes).partials f
      = dictGet? (collapsePass st).partials f := by
  cases changes with
  | none => exact dictGet?_dictDel_ne _ _ _ hne
  | some cs =>
    cases h : dictGet? (collapsePass st).partials wfile with
    | some oldcs =>
      have hp : (updatePartials st wfile (some cs)).partials
          = dictSet (collapsePass st).partials wfile
              (setChunkStates oldcs cs) := by
        simp only [updatePartials, h]
      rw [hp]
      exact dictGet?_dictSet_ne _ _ _ _ hne
    | none =>
      have hp : (updatePartials st wfile (some cs)).partials
          = dictSet (collapsePass st).partials wfile
              (if (getCheckedList (collapsePass st)).contains wfile then cs
               else cs.map fun h => { h with excluded := true }) := by
        simp only [updatePartials, h]
      rw [hp]
      exact dictGet?_dictSet_ne _ _ _ _ hne

theorem dictGet?_mem {β : Type} (d : List (String × β)) (k : String)
    (v : β) (h : dictGet? d k = some v) : (k, v) ∈ d := by
  induction d with
  | nil => cases h
  | cons e d ih =>
    by_cases he : e.1 = k
    · simp only [dictGet?, beq_iff_eq, if_pos he, Option.some.injEq] at h
      have : e = (k, v) := by
        cases e
        simp_all
      exact this ▸ List.mem_cons_self e d
    · simp only [dictGet?, beq_iff_eq, if_neg he] at h
      exact List.mem_cons_of_mem e (ih h)

theorem dictGet?_filter_none_of_pred {β : Type} (p : String × β → Bool)
    (d : List (String × β)) (f : String)
    (h : ∀ v, p (f, v) = false) : dictGet? (d.filter p) f = none := by
  induction d with
  | nil => rfl
  | cons e d ih =>
    by_cases hpe : p e = true
    · rw [List.filter_cons_of_pos hpe]
      have hef : e.1 ≠ f := by
        intro hEq
        have hfe : p (f, e.2) = false := h e.2
        rw [show ((f, e.2) : String × β) = e from by
          cases e; simp_all] at hfe
        simp_all
      simp only [dictGet?, beq_iff_eq, if_neg hef]
      exact ih
    · rw [List.filter_cons_of_neg (by simpa using hpe)]
      exact ih

/-- C3 (counterexample): the claim states a file whose recorded
exclusions cover zero hunks collapses to fully checked and leaves the
partials map; but when that file is the one currently being refreshed,
`_updatePartials` re-records it at the end (`self.partials[wfile] =
changes`), so the file is in the partials map after the call. -/
theorem updatePartials_retracks_counterexample :
    excludecount [({ fromline := 0, excluded := false } : Hunk)] = 0 ∧
    (updatePartials
        { partials := [("a", [{ fromline := 0, excluded := false }])],
          checked := [("a", true)] }
        "a" (some [{ fromline := 5, excluded := false }])).partials
      = [("a", [{ fromline := 5, excluded := false }])] := by
  constructor
  · decide
  · decide

/-- C3 (amended): on refresh, a file still partially selected keeps its
entry and each recorded per-hunk exclusion is carried to the new hunk
with the same `fromline`; a file with zero (resp. all) excluded hunks
collapses to fully checked (resp. unchecked) and leaves the partials
map, except the file currently being refreshed, which is re-recorded
with its new hunk list; and a file absent from the new model's checked
keys is removed from the partials map by `updateModel`. -/
theorem updatePartials_spec :
    (∀ (st : PartState) (wfile : String) (oldcs cs : Changes),
      dictGet? st.partials wfile = some oldcs →
      0 < excludecount oldcs → excludecount oldcs < oldcs.length →
      dictGet? (updatePartials st wfile (some cs)).partials wfile
        = some (setChunkStates oldcs cs)) ∧
    (∀ (oldcs : Changes), (oldcs.map Hunk.fromline).Nodup →
      ∀ (cs : Changes), ∀ pr ∈ cs.zip (setChunkStates oldcs cs),
        pr.2.fromline = pr.1.fromline ∧
        (∀ oh ∈ oldcs, oh.fromline = pr.1.fromline →
          pr.2.excluded = oh.excluded) ∧
        ((∀ oh ∈ oldcs, oh.fromline ≠ pr.1.fromline) → pr.2 = pr.1)) ∧
    (∀ (st : PartState) (wfile : String) (changes : Option Changes)
       (f : String) (cs : Changes),
      (st.partials.map Prod.fst).Nodup →
      dictGet? st.partials f = some cs →
      (excludecount cs = 0 ∨ excludecount cs = cs.length) →
      dictGet? (updatePartials st wfile changes).checked f
        = some (decide (excludecount cs = 0)) ∧
      (f ≠ wfile →
        dictGet? (updatePartials st wfile changes).partials f = none)) ∧
    (∀ (partials : List (String × Changes)) (keys : List String)
       (f : String), keys.contains f = false →
      dictGet? (refreshPartialsCleanup partials keys) f = none) ∧
    (∀ (st : PartState) (wfile : String),
      (st.partials.map Prod.fst).Nodup →
      dictGet? (updatePartials st wfile none).partials wfile = none) := by
  refine ⟨?_, ?_, ?_, ?_, ?_⟩
  · intro st wfile oldcs cs hget h0 hlen
    have hkeep : dictGet? (collapsePass st).partials wfile = some oldcs := by
      apply dictGet?_filter_keep _ _ _ _ hget
      simp only [Bool.not_eq_eq_eq_not, Bool.not_true, Bool.or_eq_false_iff]
      constructor <;> simp <;> omega
    have hp : (updatePartials st wfile (some cs)).partials
        = dictSet (collapsePass st).partials wfile
            (setChunkStates oldcs cs) := by
      simp only [updatePartials, hkeep]
    rw [hp]
    exact dictGet?_dictSet_self _ _ _
  · intro oldcs hnd cs pr hpr
    exact setChunkStates_zip_spec oldcs hnd cs pr hpr
  · intro st wfile changes f cs hnd hget hcol
    constructor
    · rw [updatePartials_checked]
      exact collapse_foldl_get st.partials st.checked f cs
        (dictGet?_mem _ _ _ hget) hnd hcol
    · intro hne
      rw [updatePartials_partials_ne st wfile changes f hne]
      apply dictGet?_filter_drop _ _ _ cs hnd hget
      rcases hcol with h | h <;> simp [h]
  · intro partials keys f hf
    exact dictGet?_filter_none_of_pred _ _ _ (fun v => hf)
  · intro st wfile hnd
    show dictGet? (dictDel (collapsePass st).partials wfile) wfile = none
    apply dictGet?_dictDel_self
    exact List.Nodup.sublist
      ((List.filter_sublist st.partials).map Prod.fst) hnd

/-- C3 witness: a concrete state with one partially selected file `a`
(hunk 1 excluded, hunk 7 enabled) and one fully excluded file `b`;
refreshing `a` carries the exclusion of `fromline` 1 to the new hunk
list, collapses `b` to unchecked and drops it from partials, and the
`updateModel` cleanup removes a file missing from the new checked keys. -/
theorem updatePartials_spec_witness :
    dictGet? (updatePartials
        { partials := [("a", [{ fromline := 1, excluded := true },
                              { fromline := 7, excluded := false }]),
                       ("b", [{ fromline := 2, excluded := true }])],
          checked := [("a", true), ("b", true)] }
        "a" (some [{ fromline := 1, excluded := false },
                   { fromline := 9, excluded := false }])).partials "a"
      = some (setChunkStates
          [{ fromline := 1, excluded := true },
           { fromline := 7, excluded := false }]
          [{ fromline := 1, excluded := false },
           { fromline := 9, excluded := false }]) ∧
    dictGet? (updatePartials
        { partials := [("a", [{ fromline := 1, excluded := true },
                              { fromline := 7, excluded := false }]),
                       ("b", [{ fromline := 2, excluded := true }])],
          checked := [("a", true), ("b", true)] }
        "a" (some [{ fromline := 1, excluded := false },
                   { fromline := 9, excluded := false }])).checked "b"
      = some (decide
          (excludecount [{ fromline := 2, excluded := true }] = 0)) ∧
    dictGet? (updatePartials
        { partials := [("a", [{ fromline := 1, excluded := true },
                              { fromline := 7, excluded := false }]),
                       ("b", [{ fromline := 2, excluded := true }])],
          checked := [("a", true), ("b", true)] }
        "a" (some [{ fromline := 1, excluded := false },
                   { fromline := 9, excluded := false }])).partials "b"
      = none ∧
    dictGet? (refreshPartialsCleanup
        [("c", [{ fromline := 3, excluded := true }])] ["d"]) "c" = none :=
  ⟨updatePartials_spec.1 _ "a" _ _ (by decide) (by decide) (by decide),
   (updatePartials_spec.2.2.1 _ "a" _ "b"
     [{ fromline := 2, excluded := true }] (by decide) (by decide)
     (by decide)).1,
   (updatePartials_spec.2.2.1 _ "a" _ "b"
     [{ fromline := 2, excluded := true }] (by decide) (by decide)
     (by decide)).2 (by decide),
   updatePartials_spec.2.2.2.1 _ ["d"] "c" (by decide)⟩

/-! ### customtools.py applyChanges lemmas -/

theorem deleteToolFields_cases (name : String) :
    ∀ (fs : List String) (ini : Ini) (k : String × String),
      (fs.foldl (fun ini field =>
        updateIniValue ini "tortoisehg-tools" (name ++ "." ++ field) none)
        ini) k = none ∨
      (fs.foldl (fun ini field =>
        updateIniValue ini "tortoisehg-tools" (name ++ "." ++ field) none)
        ini) k = ini k := by
  intro fs
  induction fs with
  | nil => intro ini k; right; rfl
  | cons f fs ih =>
    intro ini k
    rw [List.foldl_cons]
    rcases ih (updateIniValue ini "tortoisehg-tools" (name ++ "." ++ f)
        none) k with h | h
    · left; exact h
    · by_cases hk : k = ("tortoisehg-tools", name ++ "." ++ f)
      · left
        rw [h]
        unfold updateIniValue
        rw [if_pos hk]
      · right
        rw [h]
        unfold updateIniValue
        rw [if_neg hk]

theorem deleteToolFields_hits (name : String) :
    ∀ (fs : List String) (ini : Ini) (field : String), field ∈ fs →
      (fs.foldl (fun ini field =>
        updateIniValue ini "tortoisehg-tools" (name ++ "." ++ field) none)
        ini) (toolKey name field) = none := by
  intro fs
  induction fs with
  | nil => intro ini field h; cases h
  | cons f fs ih =>
    intro ini field hmem
    rcases List.mem_cons.mp hmem with rfl | hmem'
    · rw [List.foldl_cons]
      rcases deleteToolFields_cases name fs _ (toolKey name field) with h | h
      · exact h
      · rw [h]
        unfold updateIniValue
        exact if_pos rfl
    · rw [List.foldl_cons]
      exact ih _ field hmem'

theorem deleteToolFields_other (name : String) :
    ∀ (fs : List String) (ini : Ini) (k : String × String),
      (∀ f ∈ fs, k ≠ toolKey name f) →
      (fs.foldl (fun ini field =>
        updateIniValue ini "tortoisehg-tools" (name ++ "." ++ field) none)
        ini) k = ini k := by
  intro fs
  induction fs with
  | nil => intro ini k _; rfl
  | cons f fs ih =>
    intro ini k h
    rw [List.foldl_cons, ih _ k (fun g hg => h g (by simp [hg]))]
    unfold updateIniValue
    exact if_neg (h f (by simp))

theorem deleteOrigTools_cases :
    ∀ (cur : List (String × ToolConfig)) (ini : Ini) (k : String × String),
      deleteOrigTools cur ini k = none ∨ deleteOrigTools cur ini k = ini k := by
  intro cur
  induction cur with
  | nil => intro ini k; right; rfl
  | cons nc cur ih =>
    intro ini k
    show deleteOrigTools cur _ k = none ∨ deleteOrigTools cur _ k = ini k
    rcases ih (fieldnames.foldl (fun ini field =>
        updateIniValue ini "tortoisehg-tools" (nc.1 ++ "." ++ field) none)
        ini) k with h | h
    · left; exact h
    · rcases deleteToolFields_cases nc.1 fieldnames ini k with h2 | h2
      · left; rw [h, h2]
      · right; rw [h, h2]

theorem deleteOrigTools_none :
    ∀ (cur : List (String × ToolConfig)) (ini : Ini) (name field : String),
      name ∈ cur.map Prod.fst → field ∈ fieldnames →
      deleteOrigTools cur ini (toolKey name field) = none := by
  intro cur
  induction cur with
  | nil => intro ini name field h; cases h
  | cons nc cur ih =>
    intro ini name field hname hf
    rcases List.mem_cons.mp hname with heq | hmem'
    · show deleteOrigTools cur _ (toolKey name field) = none
      rcases deleteOrigTools_cases cur (fieldnames.foldl _ ini)
          (toolKey name field) with h | h
      · exact h
      · rw [h, heq]
        exact deleteToolFields_hits nc.1 fieldnames ini field hf
    · exact ih _ name field hmem' hf

theorem deleteOrigTools_other :
    ∀ (cur : List (String × ToolConfig)) (ini : Ini) (k : String × String),
      (∀ nc ∈ cur, ∀ f ∈ fieldnames, k ≠ toolKey nc.1 f) →
      deleteOrigTools cur ini k = ini k := by
  intro cur
  induction cur with
  | nil => intro ini k _; rfl
  | cons nc cur ih =>
    intro ini k h
    show deleteOrigTools cur _ k = ini k
    rw [ih _ k (fun nc2 h2 f hfm => h nc2 (by simp [h2]) f hfm)]
    exact deleteToolFields_other nc.1 fieldnames ini k
      (fun f hfm => h nc (by simp) f hfm)

theorem writeFields_aux_unchanged (name : String) :
    ∀ (fs : ToolConfig) (ini : Ini) (k : String × String),
      (∀ fv ∈ fs, fv.2.nonempty = true → k ≠ toolKey name fv.1) →
      (fs.foldl (fun ini fv =>
        if fv.2.nonempty then
          updateIniValue ini "tortoisehg-tools" (name ++ "." ++ fv.1)
            (some fv.2.str)
        else ini) ini) k = ini k := by
  intro fs
  induction fs with
  | nil => intro ini k _; rfl
  | cons fv fs ih =>
    intro ini k h
    rw [List.foldl_cons, ih _ k (fun g hg hne => h g (by simp [hg]) hne)]
    by_cases hne : fv.2.nonempty = true
    · rw [if_pos hne]
      unfold updateIniValue
      exact if_neg (h fv (by simp) hne)
    · rw [if_neg hne]

theorem writeFields_aux_keep (name : String) (k : String × String)
    (w : String) :
    ∀ (fs : ToolConfig) (ini : Ini),
      (∀ fv ∈ fs, fv.2.nonempty = true → toolKey name fv.1 = k →
        fv.2.str = w) →
      ini k = some w →
      (fs.foldl (fun ini fv =>
        if fv.2.nonempty then
          updateIniValue ini "tortoisehg-tools" (name ++ "." ++ fv.1)
            (some fv.2.str)
        else ini) ini) k = some w := by
  intro fs
  induction fs with
  | nil => intro ini _ hini; exact hini
  | cons fv fs ih =>
    intro ini h hini
    rw [List.foldl_cons]
    apply ih _ (fun g hg => h g (by simp [hg]))
    by_cases hne : fv.2.nonempty = true
    · rw [if_pos hne]
      unfold updateIniValue
      by_cases hk : k = ("tortoisehg-tools", name ++ "." ++ fv.1)
      · rw [if_pos hk]
        rw [h fv (by simp) hne hk.symm]
      · rw [if_neg hk]
        exact hini
    · rw [if_neg hne]
      exact hini

theorem writeFields_aux_hit (name : String) (k : String × String)
    (w : String) :
    ∀ (fs : ToolConfig) (ini : Ini),
      (∀ fv ∈ fs, fv.2.nonempty = true → toolKey name fv.1 = k →
        fv.2.str = w) →
      (∃ fv ∈ fs, fv.2.nonempty = true ∧ toolKey name fv.1 = k) →
      (fs.foldl (fun ini fv =>
        if fv.2.nonempty then
          updateIniValue ini "tortoisehg-tools" (name ++ "." ++ fv.1)
            (some fv.2.str)
        else ini) ini) k = some w := by
  intro fs
  induction fs with
  | nil => intro ini _ hex; exact absurd hex (by simp)
  | cons fv fs ih =>
    intro ini h hex
    rcases hex with ⟨g, hg, hgne, hgk⟩
    rcases List.mem_cons.mp hg with rfl | hg'
    · rw [List.foldl_cons]
      apply writeFields_aux_keep name k w fs _
        (fun e he => h e (by simp [he]))
      rw [if_pos hgne]
      unfold updateIniValue
      rw [if_pos (show k = ("tortoisehg-tools", name ++ "." ++ g.1)
        from hgk.symm)]
      rw [h g (by simp) hgne hgk]
    · rw [List.foldl_cons]
      exact ih _ (fun e he => h e (by simp [he])) ⟨g, hg', hgne, hgk⟩

theorem writeToolFields_unchanged (name : String) (cfg : ToolConfig)
    (ini : Ini) (k : String × String)
    (h : ∀ fv ∈ cfg, fv.2.nonempty = true → k ≠ toolKey name fv.1) :
    writeToolFields name cfg ini k = ini k :=
  writeFields_aux_unchanged name (sortedFields cfg) ini k
    (fun fv hfv => h fv ((List.mergeSort_perm cfg _).mem_iff.mp hfv))

theorem writeToolFields_hit (name : String) (cfg : ToolConfig)
    (ini : Ini) (k : String × String) (w : String)
    (h : ∀ fv ∈ cfg, fv.2.nonempty = true → toolKey name fv.1 = k →
      fv.2.str = w)
    (hex : ∃ fv ∈ cfg, fv.2.nonempty = true ∧ toolKey name fv.1 = k) :
    writeToolFields name cfg ini k = some w := by
  apply writeFields_aux_hit name k w (sortedFields cfg) ini
    (fun fv hfv => h fv ((List.mergeSort_perm cfg _).mem_iff.mp hfv))
  rcases hex with ⟨g, hg, hp⟩
  exact ⟨g, (List.mergeSort_perm cfg _).mem_iff.mpr hg, hp⟩

theorem writeToolFields_keep (name : String) (cfg : ToolConfig)
    (ini : Ini) (k : String × String) (w : String)
    (h : ∀ fv ∈ cfg, fv.2.nonempty = true → toolKey name fv.1 = k →
      fv.2.str = w)
    (hini : ini k = some w) :
    writeToolFields name cfg ini k = some w :=
  writeFields_aux_keep name k w (sortedFields cfg) ini
    (fun fv hfv => h fv ((List.mergeSort_perm cfg _).mem_iff.mp hfv)) hini

theorem writeTools_unchanged :
    ∀ (tools : List (String × ToolConfig)) (ini : Ini) (k : String × String),
      (∀ nc ∈ tools, nameSkipped nc.1 = false → ∀ fv ∈ nc.2,
        fv.2.nonempty = true → k ≠ toolKey nc.1 fv.1) →
      writeTools tools ini k = ini k := by
  intro tools
  induction tools with
  | nil => intro ini k _; rfl
  | cons nc tools ih =>
    intro ini k h
    show writeTools tools _ k = ini k
    rw [ih _ k (fun e he => h e (by simp [he]))]
    show (if nameSkipped nc.1 = true then ini
      else writeToolFields nc.1 nc.2 ini) k = ini k
    by_cases hs : nameSkipped nc.1 = true
    · rw [if_pos hs]
    · rw [if_neg hs]
      exact writeToolFields_unchanged nc.1 nc.2 ini k
        (h nc (by simp) (by simpa using hs))

theorem writeTools_keep (k : String × String) (w : String) :
    ∀ (tools : List (String × ToolConfig)) (ini : Ini),
      (∀ nc ∈ tools, nameSkipped nc.1 = false → ∀ fv ∈ nc.2,
        fv.2.nonempty = true → toolKey nc.1 fv.1 = k → fv.2.str = w) →
      ini k = some w → writeTools tools ini k = some w := by
  intro tools
  induction tools with
  | nil => intro ini _ hini; exact hini
  | cons nc tools ih =>
    intro ini h hini
    show writeTools tools _ k = some w
    apply ih _ (fun e he => h e (by simp [he]))
    show (if nameSkipped nc.1 = true then ini
      else writeToolFields nc.1 nc.2 ini) k = some w
    by_cases hs : nameSkipped nc.1 = true
    · rw [if_pos hs]; exact hini
    · rw [if_neg hs]
      exact writeToolFields_keep nc.1 nc.2 ini k w
        (h nc (by simp) (by simpa using hs)) hini

theorem writeTools_hit (k : String × String) (w : String) :
    ∀ (tools : List (String × ToolConfig)) (ini : Ini),
      (∀ nc ∈ tools, nameSkipped nc.1 = false → ∀ fv ∈ nc.2,
        fv.2.nonempty = true → toolKey nc.1 fv.1 = k → fv.2.str = w) →
      (∃ nc ∈ tools, nameSkipped nc.1 = false ∧
        ∃ fv ∈ nc.2, fv.2.nonempty = true ∧ toolKey nc.1 fv.1 = k) →
      writeTools tools ini k = some w := by
  intro tools
  induction tools with
  | nil => intro ini _ hex; exact absurd hex (by simp)
  | cons nc tools ih =>
    intro ini h hex
    rcases hex with ⟨e, he, hes, g, hg, hgne, hgk⟩
    rcases List.mem_cons.mp he with rfl | he'
    · show writeTools tools _ k = some w
      apply writeTools_keep k w tools _ (fun e2 he2 => h e2 (by simp [he2]))
      show (if nameSkipped e.1 = true then ini
        else writeToolFields e.1 e.2 ini) k = some w
      rw [if_neg (by simp [hes])]
      exact writeToolFields_hit e.1 e.2 ini k w
        (h e (by simp) hes) ⟨g, hg, hgne, hgk⟩
    · show writeTools tools _ k = some w
      exact ih _ (fun e2 he2 => h e2 (by simp [he2]))
        ⟨e, he', hes, g, hg, hgne, hgk⟩

theorem writeGuidefs_other :
    ∀ (ws : List (String × List String × List String)) (ini : Ini)
      (k : String × String), k.1 ≠ "tortoisehg" →
      writeGuidefs ws ini k = ini k := by
  intro ws
  induction ws with
  | nil => intro ini k _; rfl
  | cons wdg ws ih =>
    intro ini k h
    show writeGuidefs ws _ k = ini k
    rw [ih _ k h]
    show (if wdg.2.2 ≠ wdg.2.1 then
      updateIniValue ini "tortoisehg" wdg.1 (some (pyJoin " " wdg.2.2))
      else ini) k = ini k
    by_cases hd : wdg.2.2 ≠ wdg.2.1
    · rw [if_pos hd]
      unfold updateIniValue
      exact if_neg (fun hEq => h (by rw [hEq]))
    · rw [if_neg hd]

/-- C9: `applyChanges` returns `False` and leaves every section and key
of the ini untouched when neither the tool configuration nor any tool
list is dirty; when dirty it reports `True`, deletes every field key of
every originally loaded tool from the `tortoisehg-tools` section (each
such key not rewritten by the current tools ends up absent), rewrites
every non-empty field of every current non-separator tool with its
current value, and never touches keys outside the `tortoisehg-tools`
and `tortoisehg` sections. -/
theorem applyChanges_spec :
    (∀ (st : ToolsFrameState) (ini : Ini),
      toolsIsDirty st = false → applyChanges st ini = (ini, false)) ∧
    (∀ (st : ToolsFrameState) (ini : Ini),
      toolsIsDirty st = true → (applyChanges st ini).2 = true) ∧
    (∀ (st : ToolsFrameState) (ini : Ini) (name field : String),
      toolsIsDirty st = true →
      name ∈ st.curvalue.map Prod.fst → field ∈ fieldnames →
      (∀ nc ∈ st.tools, nameSkipped nc.1 = false → ∀ fv ∈ nc.2,
        fv.2.nonempty = true → toolKey name field ≠ toolKey nc.1 fv.1) →
      (applyChanges st ini).1 (toolKey name field) = none) ∧
    (∀ (st : ToolsFrameState) (ini : Ini) (name : String)
       (cfg : ToolConfig) (field : String) (v : TVal),
      toolsIsDirty st = true →
      (name, cfg) ∈ st.tools → nameSkipped name = false →
      (field, v) ∈ cfg → v.nonempty = true →
      (∀ nc ∈ st.tools, nameSkipped nc.1 = false → ∀ fv ∈ nc.2,
        fv.2.nonempty = true → toolKey nc.1 fv.1 = toolKey name field →
        fv.2.str = v.str) →
      (applyChanges st ini).1 (toolKey name field) = some v.str) ∧
    (∀ (st : ToolsFrameState) (ini : Ini) (k : String × String),
      k.1 ≠ "tortoisehg-tools" → k.1 ≠ "tortoisehg" →
      (applyChanges st ini).1 k = ini k) := by
  refine ⟨?_, ?_, ?_, ?_, ?_⟩
  · intro st ini h
    unfold applyChanges
    rw [if_neg (by simp [h])]
  · intro st ini h
    unfold applyChanges
    rw [if_pos h]
  · intro st ini name field hd hn hf hnw
    unfold applyChanges
    rw [if_pos hd]
    show writeGuidefs st.widgets
      (writeTools st.tools (deleteOrigTools st.curvalue ini))
      (toolKey name field) = none
    rw [writeGuidefs_other st.widgets _ (toolKey name field)
        (show ("tortoisehg-tools" : String) ≠ "tortoisehg" by decide),
      writeTools_unchanged st.tools _ (toolKey name field) hnw]
    exact deleteOrigTools_none st.curvalue ini name field hn hf
  · intro st ini name cfg field v hd hmem hskip hfv hne hall
    unfold applyChanges
    rw [if_pos hd]
    show writeGuidefs st.widgets
      (writeTools st.tools (deleteOrigTools st.curvalue ini))
      (toolKey name field) = some v.str
    rw [writeGuidefs_other st.widgets _ (toolKey name field)
        (show ("tortoisehg-tools" : String) ≠ "tortoisehg" by decide)]
    exact writeTools_hit (toolKey name field) v.str st.tools _ hall
      ⟨(name, cfg), hmem, hskip, (field, v), hfv, hne, rfl⟩
  · intro st ini k h1 h2
    unfold applyChanges
    by_cases hd : toolsIsDirty st = true
    · rw [if_pos hd]
      show writeGuidefs st.widgets
        (writeTools st.tools (deleteOrigTools st.curvalue ini)) k = ini k
      rw [writeGuidefs_other st.widgets _ k h2,
        writeTools_unchanged st.tools _ k ?hw,
        deleteOrigTools_other st.curvalue ini k ?hdl]
      case hw =>
        intro nc _ _ fv _ _ hEq
        exact h1 (by rw [hEq]; rfl)
      case hdl =>
        intro nc _ f _ hEq
        exact h1 (by rw [hEq]; rfl)
    · rw [if_neg hd]

/-- C9 witness: a dirty state (the tool `old` was replaced by `new`);
after `applyChanges` the key `old.command` is gone, `new.command` holds
the new command, an unrelated section is untouched, a clean state
returns the ini unchanged with `False`, and so does a state whose tool
dict holds the same tools and fields in a different insertion order
(Python dict equality ignores order, so it is not dirty). -/
theorem applyChanges_spec_witness :
    (applyChanges
        { curvalue := [("old", [("command", TVal.s "x")])],
          tools := [("new", [("command", TVal.s "y"), ("label", TVal.s "")])],
          widgets := [], globalCur := [], globalVal := [] }
        (fun _ => none)).1 (toolKey "old" "command") = none ∧
    (applyChanges
        { curvalue := [("old", [("command", TVal.s "x")])],
          tools := [("new", [("command", TVal.s "y"), ("label", TVal.s "")])],
          widgets := [], globalCur := [], globalVal := [] }
        (fun _ => none)).1 (toolKey "new" "command")
      = some (TVal.s "y").str ∧
    (applyChanges
        { curvalue := [("old", [("command", TVal.s "x")])],
          tools := [("new", [("command", TVal.s "y"), ("label", TVal.s "")])],
          widgets := [], globalCur := [], globalVal := [] }
        (fun _ => none)).1 ("ui", "username") = none ∧
    applyChanges
        { curvalue := [("t", [("command", TVal.s "x")])],
          tools := [("t", [("command", TVal.s "x")])],
          widgets := [], globalCur := [], globalVal := [] }
        (fun _ => none)
      = ((fun _ => none), false) ∧
    applyChanges
        { curvalue := [("a", [("command", TVal.s "x"), ("label", TVal.s "L")]),
                       ("b", [("command", TVal.s "y")])],
          tools := [("b", [("command", TVal.s "y")]),
                    ("a", [("label", TVal.s "L"), ("command", TVal.s "x")])],
          widgets := [], globalCur := [], globalVal := [] }
        (fun _ => none)
      = ((fun _ => none), false) :=
  ⟨applyChanges_spec.2.2.1 _ _ "old" "command" (by decide) (by decide)
     (by decide) (by decide),
   applyChanges_spec.2.2.2.1 _ _ "new"
     [("command", TVal.s "y"), ("label", TVal.s "")] "command" (TVal.s "y")
     (by decide) (by decide) (by decide) (by decide) (by decide) (by decide),
   applyChanges_spec.2.2.2.2 _ _ ("ui", "username") (by decide) (by decide),
   applyChanges_spec.1 _ _ (by decide),
   applyChanges_spec.1 _ _ (by decide)⟩
/-! ### C7: checked-paths invariant of `WctxModel` -/

/-- The keys of `dictSet d k v` are `k` together with the keys of `d`. -/
theorem mem_keys_dictSet {β : Type} (d : List (String × β)) (k : String)
    (v : β) (p : String) :
    p ∈ (dictSet d k v).map Prod.fst ↔ p = k ∨ p ∈ d.map Prod.fst := by
  induction d with
  | nil => simp [dictSet]
  | cons e d ih =>
    by_cases he : e.1 = k
    · subst he
      simp [dictSet]
    · have hne : (e.1 == k) = false := by
        simp [he]
      simp [dictSet, hne, ih]
      tauto

/-- Each category loop keeps the checked keys equal to the row paths. -/
theorem wAddCat_keys (info : String → String × String × Option Nat)
    (checked0 : List (String × Bool)) (letterRow : String)
    (defv : String → Bool) :
    ∀ (files : List String) (acc : List WRow × List (String × Bool)),
      (∀ p, p ∈ acc.2.map Prod.fst ↔ p ∈ pathsOf acc.1) →
      ∀ p, p ∈ (wAddCat info checked0 letterRow defv files acc).2.map
          Prod.fst ↔
        p ∈ pathsOf (wAddCat info checked0 letterRow defv files acc).1 := by
  intro files
  induction files with
  | nil => intro acc h; exact h
  | cons f fs ih =>
    intro acc h
    have step : wAddCat info checked0 letterRow defv (f :: fs) acc =
        wAddCat info checked0 letterRow defv fs
          (acc.1 ++ [mkrow info f letterRow],
           dictSet acc.2 f ((dictGet? checked0 f).getD (defv f))) := by
      unfold wAddCat
      rw [List.foldl_cons]
    rw [step]
    apply ih
    intro p
    rw [mem_keys_dictSet, h p]
    have hps : p ∈ pathsOf (acc.1 ++ [mkrow info f letterRow]) ↔
        p ∈ pathsOf acc.1 ∨ p = f := by
      simp [pathsOf, mkrow]
    rw [hps]
    exact or_comm

/-- The unresolved/amend loop keeps the checked keys equal to the row
paths. -/
theorem wAddIfAbsent_keys (info : String → String × String × Option Nat)
    (checked0 : List (String × Bool)) :
    ∀ (files : List String) (acc : List WRow × List (String × Bool)),
      (∀ p, p ∈ acc.2.map Prod.fst ↔ p ∈ pathsOf acc.1) →
      ∀ p, p ∈ (wAddIfAbsent info checked0 files acc).2.map Prod.fst ↔
        p ∈ pathsOf (wAddIfAbsent info checked0 files acc).1 := by
  intro files
  induction files with
  | nil => intro acc h; exact h
  | cons f fs ih =>
    intro acc h
    have step : wAddIfAbsent info checked0 (f :: fs) acc =
        wAddIfAbsent info checked0 fs
          (if (dictGet? acc.2 f).isSome then acc
           else (acc.1 ++ [mkrow info f "C"],
                 dictSet acc.2 f ((dictGet? checked0 f).getD true))) := by
      unfold wAddIfAbsent
      rw [List.foldl_cons]
    rw [step]
    apply ih
    by_cases hf : (dictGet? acc.2 f).isSome
    · rw [if_pos hf]; exact h
    · rw [if_neg hf]
      intro p
      rw [mem_keys_dictSet, h p]
      have hps : p ∈ pathsOf (acc.1 ++ [mkrow info f "C"]) ↔
          p ∈ pathsOf acc.1 ∨ p = f := by
        simp [pathsOf, mkrow]
      rw [hps]
      exact or_comm

/-- A guarded category loop keeps the checked keys equal to the row
paths. -/
theorem ite_wAddCat_keys (b : Bool)
    (info : String → String × String × Option Nat)
    (checked0 : List (String × Bool)) (letterRow : String)
    (defv : String → Bool) (files : List String)
    (acc : List WRow × List (String × Bool))
    (h : ∀ p, p ∈ acc.2.map Prod.fst ↔ p ∈ pathsOf acc.1) :
    ∀ p, p ∈ (if b then wAddCat info checked0 letterRow defv files acc
        else acc).2.map Prod.fst ↔
      p ∈ pathsOf (if b then wAddCat info checked0 letterRow defv files acc
        else acc).1 := by
  cases b with
  | false =>
    rw [if_neg Bool.false_ne_true]
    exact h
  | true =>
    rw [if_pos rfl]
    exact wAddCat_keys info checked0 letterRow defv files acc h

/-- After `WctxModel.__init__`, the keys of `nchecked` are exactly the
row paths. -/
theorem wctxInit_keys (wi : WInit) :
    ∀ p, p ∈ (wctxInit wi).2.map Prod.fst ↔ p ∈ pathsOf (wctxInit wi).1 := by
  simp only [wctxInit]
  apply wAddIfAbsent_keys
  apply wAddIfAbsent_keys
  apply ite_wAddCat_keys
  apply ite_wAddCat_keys
  apply ite_wAddCat_keys
  apply ite_wAddCat_keys
  apply ite_wAddCat_keys
  apply ite_wAddCat_keys
  apply ite_wAddCat_keys
  apply ite_wAddCat_keys
  intro p
  simp [pathsOf]

/-- A freshly constructed model satisfies the invariant. -/
theorem initModel_inv (wi : WInit) : WInv (initModel wi) :=
  ⟨fun p hp => (wctxInit_keys wi p).mp hp,
   fun p hp => (wctxInit_keys wi p).mpr hp,
   fun _ hr => hr, fun _ => rfl⟩

/-- The in-place sorting pass is a permutation of the row list. -/
theorem wSortRows_perm (checked : List (String × Bool)) (rows : List WRow)
    (col : Nat) (desc : Bool) :
    (wSortRows checked rows col desc).Perm rows := by
  have hrev : ∀ l : List WRow, (if desc then l.reverse else l).Perm l := by
    intro l
    cases desc
    · rw [if_neg Bool.false_ne_true]
    · rw [if_pos rfl]
      exact l.reverse_perm
  simp only [wSortRows]
  refine (hrev _).trans ?_
  by_cases h3 : col = 3
  · rw [if_pos h3]
    exact List.mergeSort_perm rows _
  · rw [if_neg h3]
    have hb1 : (rows.mergeSort
        (fun a b => pyLower a.path ≤ pyLower b.path)).Perm rows :=
      List.mergeSort_perm rows _
    have hb2 : ((rows.mergeSort
        (fun a b => pyLower a.path ≤ pyLower b.path)).reverse).Perm rows :=
      (List.reverse_perm _).trans hb1
    split_ifs <;>
      first
        | exact (List.mergeSort_perm _ _).trans hb2
        | exact (List.mergeSort_perm _ _).trans hb1


/-- `setData` preserves the invariant. -/
theorem winv_setData (partials : List (String × Changes)) (m : WctxModel)
    (i : Nat) (v : CheckSt) (hi : WInv m) :
    WInv (wSetData partials m i v).1 := by
  obtain ⟨i1, i2, i3, i4⟩ := hi
  cases hr : m.rows[i]? with
  | none =>
    have he : (wSetData partials m i v).1 = m := by
      simp only [wSetData, hr]
    rw [he]
    exact ⟨i1, i2, i3, i4⟩
  | some r =>
    by_cases h1 : wDataCheckState partials m i = some v
    · have he : (wSetData partials m i v).1 = m := by
        simp only [wSetData, hr]
        rw [if_pos h1]
      rw [he]
      exact ⟨i1, i2, i3, i4⟩
    · by_cases h2 : v = CheckSt.partially
      · have he : (wSetData partials m i v).1 = m := by
          simp only [wSetData, hr]
          rw [if_neg h1, if_pos h2]
        rw [he]
        exact ⟨i1, i2, i3, i4⟩
      · have he : (wSetData partials m i v).1 = { m with
            checked := dictSet m.checked r.path (v == CheckSt.checked) } := by
          simp only [wSetData, hr]
          rw [if_neg h1, if_neg h2]
        rw [he]
        have hrm : r ∈ m.unfiltered := i3 r (List.getElem?_mem hr)
        refine ⟨?_, ?_, i3, i4⟩
        · intro p hp
          have hp2 : p ∈ (dictSet m.checked r.path
              (v == CheckSt.checked)).map Prod.fst := hp
          rw [mem_keys_dictSet] at hp2
          rcases hp2 with rfl | hp2
          · exact List.mem_map_of_mem WRow.path hrm
          · exact i1 p hp2
        · intro p hp
          show p ∈ (dictSet m.checked r.path
              (v == CheckSt.checked)).map Prod.fst
          rw [mem_keys_dictSet]
          right
          exact i2 p hp

/-- `sort` preserves the invariant (also when `rows` and `unfiltered`
are still the same list). -/
theorem winv_sort (m : WctxModel) (col : Nat) (desc : Bool)
    (hi : WInv m) : WInv (wSort m col desc) := by
  obtain ⟨i1, i2, i3, i4⟩ := hi
  have hperm := wSortRows_perm m.checked m.rows col desc
  by_cases hs : m.shared = true
  · have hru : m.rows = m.unfiltered := i4 hs
    have hperm2 : (wSortRows m.checked m.rows col desc).Perm
        m.unfiltered := hru ▸ hperm
    refine ⟨?_, ?_, ?_, ?_⟩
    · intro p hp
      show p ∈ pathsOf (if m.shared then
          wSortRows m.checked m.rows col desc else m.unfiltered)
      rw [if_pos hs]
      exact ((hperm2.map WRow.path).mem_iff).mpr (i1 p hp)
    · intro p hp
      have hp2 : p ∈ pathsOf (if m.shared then
          wSortRows m.checked m.rows col desc else m.unfiltered) := hp
      rw [if_pos hs] at hp2
      exact i2 p (((hperm2.map WRow.path).mem_iff).mp hp2)
    · intro r hr
      show r ∈ (if m.shared then
          wSortRows m.checked m.rows col desc else m.unfiltered)
      rw [if_pos hs]
      exact hr
    · intro _
      show wSortRows m.checked m.rows col desc =
        (if m.shared then
          wSortRows m.checked m.rows col desc else m.unfiltered)
      rw [if_pos hs]
  · refine ⟨?_, ?_, ?_, ?_⟩
    · intro p hp
      show p ∈ pathsOf (if m.shared then
          wSortRows m.checked m.rows col desc else m.unfiltered)
      rw [if_neg hs]
      exact i1 p hp
    · intro p hp
      have hp2 : p ∈ pathsOf (if m.shared then
          wSortRows m.checked m.rows col desc else m.unfiltered) := hp
      rw [if_neg hs] at hp2
      exact i2 p hp2
    · intro r hr
      have hr2 : r ∈ wSortRows m.checked m.rows col desc := hr
      show r ∈ (if m.shared then
          wSortRows m.checked m.rows col desc else m.unfiltered)
      rw [if_neg hs]
      exact i3 r (hperm.mem_iff.mp hr2)
    · intro hsh
      exact absurd hsh hs

/-- `setFilter` preserves the invariant. -/
theorem winv_filter (m : WctxModel) (mtch : String)
    (hi : WInv m) : WInv (wSetFilter m mtch) := by
  obtain ⟨i1, i2, i3, i4⟩ := hi
  refine ⟨i1, i2, ?_, ?_⟩
  · intro r hr
    exact List.mem_of_mem_filter hr
  · intro hsh
    exact absurd hsh Bool.false_ne_true

/-- Every model mutation preserves the invariant. -/
theorem winv_step (m m2 : WctxModel) (h : WStep m m2) (hi : WInv m) :
    WInv m2 := by
  cases h with
  | toggle partials mx i v => exact winv_setData partials _ i v hi
  | sort mx col desc => exact winv_sort _ col desc hi
  | filter mx mtch => exact winv_filter _ mtch hi

/-- C7 (amended): in every state of the working-context status model
reachable from construction by check toggles via `setData`, sorting and
name filtering via `setFilter`, the checked paths coincide with the
paths of the *unfiltered* row list and the materialized rows are drawn
from the unfiltered list; the claimed subset relation against the
currently materialized rows fails once a filter hides a checked row. -/
theorem wctx_checked_paths_spec (wi : WInit) (m : WctxModel)
    (h : Relation.ReflTransGen WStep (initModel wi) m) :
    (∀ p ∈ m.checked.map Prod.fst, p ∈ pathsOf m.unfiltered) ∧
    (∀ p ∈ pathsOf m.unfiltered, p ∈ m.checked.map Prod.fst) ∧
    (∀ r ∈ m.rows, r ∈ m.unfiltered) := by
  have hinv : WInv m := by
    induction h with
    | refl => exact initModel_inv wi
    | tail hab hbc ih => exact winv_step _ _ hbc ih
  exact ⟨hinv.1, hinv.2.1, hinv.2.2.1⟩

/-- C7 counterexample: filtering the freshly built one-file model by a
string that matches nothing keeps path `a` checked while no row stays
materialized, so the checked paths are not a subset of the rows
currently materialized. -/
theorem wctx_filter_drops_checked_counterexample :
    Relation.ReflTransGen WStep (initModel wInitExample)
      (wSetFilter (initModel wInitExample) "z") ∧
    "a" ∈ (wSetFilter (initModel wInitExample) "z").checked.map Prod.fst ∧
    pathsOf (wSetFilter (initModel wInitExample) "z").rows = [] :=
  ⟨Relation.ReflTransGen.single (WStep.filter _ _), by decide, by decide⟩

/-- C7 witness: the amended theorem applied to the freshly constructed
one-file model, reachable by the empty mutation sequence. -/
theorem wctx_checked_paths_spec_witness :
    "a" ∈ pathsOf (initModel wInitExample).unfiltered :=
  (wctx_checked_paths_spec wInitExample (initModel wInitExample)
      Relation.ReflTransGen.refl).1 "a" (by decide)

/-! ### C8: strict-forest invariant of the repo tree -/

/-- Reachability is monotone in the edge sets. -/
theorem reaches_mono (h h2 : RHeap)
    (hsub : ∀ q x, x ∈ h2.childs q → x ∈ h.childs q) :
    ∀ a b, Reaches h2 a b → Reaches h a b := by
  intro a b hr
  induction hr with
  | step hc => exact Reaches.step (hsub _ _ hc)
  | trans hab hbc ih1 ih2 => exact ih1.trans ih2

/-- A heap with no edges has no reachability. -/
theorem reaches_no_edges (h : RHeap) (hemp : ∀ q, h.childs q = []) :
    ∀ a b, ¬ Reaches h a b := by
  intro a b hr
  induction hr with
  | step hc =>
    rw [hemp] at hc
    exact absurd hc (List.not_mem_nil _)
  | trans hab hbc ih1 ih2 => exact ih1

/-- Every heap of detached childless nodes is a strict forest over any
carrier. -/
theorem hExample_forest (nodes : List Nat) : StrictForest hExample nodes := by
  refine ⟨?_, ?_, ?_⟩
  · intro p hp c hc
    exact absurd hc (List.not_mem_nil c)
  · intro n hn
    refine ⟨?_, ?_⟩
    · intro _ q hq
      exact List.not_mem_nil n
    · intro p hp
      exact Option.noConfusion hp
  · intro n
    exact reaches_no_edges hExample (fun q => rfl) n n

/-- Over a heap whose edges are those of `h` plus the single edge
`p → c`, reachability decomposes into an old path or a detour through
the new edge. -/
theorem reaches_add_edge (h h2 : RHeap) (p c : Nat)
    (hedge : ∀ q x, x ∈ h2.childs q ↔ x ∈ h.childs q ∨ (q = p ∧ x = c)) :
    ∀ a b, Reaches h2 a b →
      Reaches h a b ∨
        ((Reaches h a p ∨ a = p) ∧ (Reaches h c b ∨ c = b)) := by
  intro a b hr
  induction hr with
  | step hc2 =>
    rcases (hedge _ _).mp hc2 with hold | ⟨rfl, rfl⟩
    · exact Or.inl (Reaches.step hold)
    · exact Or.inr ⟨Or.inr rfl, Or.inr rfl⟩
  | trans hab hbc ih1 ih2 =>
    rcases ih1 with hA | ⟨hap, hcb⟩
    · rcases ih2 with hB | ⟨hbp, hcb2⟩
      · exact Or.inl (hA.trans hB)
      · refine Or.inr ⟨?_, hcb2⟩
        rcases hbp with hbp | rfl
        · exact Or.inl (hA.trans hbp)
        · exact Or.inl hA
    · refine Or.inr ⟨hap, ?_⟩
      rcases ih2 with hB | ⟨hbp2, hcb3⟩
      · rcases hcb with hcb | rfl
        · exact Or.inl (hcb.trans hB)
        · exact Or.inl hB
      · exact hcb3

/-- Adding an edge from `p` to a node that does not reach `p` keeps the
heap acyclic. -/
theorem acyclic_add_edge (h h2 : RHeap) (p c : Nat)
    (hedge : ∀ q x, x ∈ h2.childs q ↔ x ∈ h.childs q ∨ (q = p ∧ x = c))
    (hac : ∀ n, ¬ Reaches h n n) (hnr : ¬ Reaches h c p) (hne : c ≠ p) :
    ∀ n, ¬ Reaches h2 n n := by
  intro n hr
  rcases reaches_add_edge h h2 p c hedge n n hr with hold | ⟨hnp, hcn⟩
  · exact hac n hold
  · rcases hnp with hnp | rfl
    · rcases hcn with hcn | rfl
      · exact hnr (hcn.trans hnp)
      · exact hnr hnp
    · rcases hcn with hcn | rfl
      · exact hnr hcn
      · exact hne rfl

/-- Attaching a detached child that does not reach its new parent
preserves the strict forest; stated for any heap update that appends
one occurrence of `c` to the child list of `p` and repoints the parent
of `c`. -/
theorem strict_forest_add_child (h h2 : RHeap) (p c : Nat)
    (nodes : List Nat)
    (hmemp : ∀ x, x ∈ h2.childs p ↔ x ∈ h.childs p ∨ x = c)
    (hcntp : ∀ x, (h2.childs p).count x =
      (h.childs p).count x + if x = c then 1 else 0)
    (hother : ∀ q, q ≠ p → h2.childs q = h.childs q)
    (hpar : ∀ n, h2.parentOf n = if n = c then some p else h.parentOf n)
    (hsf : StrictForest h nodes) (hp : p ∈ nodes) (hc : c ∈ nodes)
    (hdet : ∀ q ∈ nodes, c ∉ h.childs q) (hpn : h.parentOf c = none)
    (hnr : ¬ Reaches h c p) (hne : c ≠ p) :
    StrictForest h2 nodes := by
  obtain ⟨cl, un, ac⟩ := hsf
  have hedge : ∀ q x, x ∈ h2.childs q ↔
      x ∈ h.childs q ∨ (q = p ∧ x = c) := by
    intro q x
    by_cases hq : q = p
    · subst hq
      rw [hmemp x]
      simp
    · rw [hother q hq]
      simp [hq]
  refine ⟨?_, ?_, acyclic_add_edge h h2 p c hedge ac hnr hne⟩
  · intro q hq x hx
    rcases (hedge q x).mp hx with hold | ⟨rfl, rfl⟩
    · exact cl q hq x hold
    · exact hc
  · intro n hn
    by_cases hnc : n = c
    · subst hnc
      have hpc : h2.parentOf n = some p := by
        rw [hpar n, if_pos rfl]
      refine ⟨?_, ?_⟩
      · intro h0
        rw [hpc] at h0
        exact absurd h0 (by simp)
      · intro p2 hp2
        rw [hpc] at hp2
        injection hp2 with hp2
        subst hp2
        refine ⟨hp, ?_, ?_⟩
        · rw [hcntp, if_pos rfl]
          have h0 : (h.childs p).count n = 0 :=
            List.count_eq_zero.mpr (hdet p hp)
          omega
        · intro q hq hqp
          rw [hother q hqp]
          exact hdet q hq
    · have hpn2 : h2.parentOf n = h.parentOf n := by
        rw [hpar n, if_neg hnc]
      refine ⟨?_, ?_⟩
      · intro h0 q hq
        rw [hpn2] at h0
        intro hmem
        rcases (hedge q n).mp hmem with hold | ⟨rfl, rfl⟩
        · exact (un n hn).1 h0 q hq hold
        · exact hnc rfl
      · intro p2 hp2
        rw [hpn2] at hp2
        obtain ⟨hp2n, hcnt, huni⟩ := (un n hn).2 p2 hp2
        refine ⟨hp2n, ?_, ?_⟩
        · by_cases hp2p : p2 = p
          · subst hp2p
            rw [hcntp, if_neg hnc]
            omega
          · rw [hother p2 hp2p]
            exact hcnt
        · intro q hq hqp2
          intro hmem
          rcases (hedge q n).mp hmem with hold | ⟨rfl, rfl⟩
          · exact huni q hq hqp2 hold
          · exact hnc rfl

/-- Membership in a Python `insert`. -/
theorem pyInsert_mem (l : List Nat) (row c x : Nat) :
    x ∈ pyInsert l row c ↔ x ∈ l ∨ x = c := by
  unfold pyInsert
  constructor
  · intro hx
    rcases List.mem_append.mp hx with hx | hx
    · exact Or.inl (List.mem_of_mem_take hx)
    · rcases List.mem_cons.mp hx with rfl | hx
      · exact Or.inr rfl
      · exact Or.inl (List.mem_of_mem_drop hx)
  · intro hx
    rcases hx with hx | rfl
    · rcases List.mem_append.mp
          ((List.take_append_drop row l).symm ▸ hx) with hx | hx
      · exact List.mem_append.mpr (Or.inl hx)
      · exact List.mem_append.mpr (Or.inr (List.mem_cons_of_mem c hx))
    · exact List.mem_append.mpr (Or.inr (List.mem_cons_self x _))

/-- Occurrence count in a Python `insert`. -/
theorem pyInsert_count (l : List Nat) (row c x : Nat) :
    (pyInsert l row c).count x = l.count x + if x = c then 1 else 0 := by
  unfold pyInsert
  rw [List.count_append, List.count_cons]
  conv_rhs => rw [← List.take_append_drop row l, List.count_append]
  by_cases hx : x = c <;> simp [hx] <;> omega

/-- Folding parent deletions over a list of nodes. -/
theorem foldl_setNone :
    ∀ (l : List Nat) (g : Nat → Option Nat) (n : Nat),
      (l.foldl (fun f c => fun m => if m = c then none else f m) g) n =
        if n ∈ l then none else g n := by
  intro l
  induction l with
  | nil =>
    intro g n
    simp
  | cons r t ih =>
    intro g n
    rw [List.foldl_cons, ih]
    by_cases hnt : n ∈ t <;> by_cases hnr : n = r <;> simp [hnt, hnr]

/-- The child lists after `removeRows`. -/
theorem removeRowsH_childs (h : RHeap) (self row count q : Nat) :
    (removeRowsH h self row count).childs q =
      if q = self then
        (h.childs self).take row ++ (h.childs self).drop (row + count)
      else h.childs q := rfl

/-- The parent pointers after `removeRows`. -/
theorem removeRowsH_parentOf (h : RHeap) (self row count n : Nat) :
    (removeRowsH h self row count).parentOf n =
      if n ∈ ((h.childs self).drop row).take count then none
      else h.parentOf n := by
  show (((h.childs self).drop row).take count).foldl
      (fun f c => fun m => if m = c then none else f m) h.parentOf n = _
  rw [foldl_setNone]

/-- The removed slice and the kept list partition the occurrence counts
of the original child list. -/
theorem removeRows_count_split (cs : List Nat) (row count x : Nat) :
    cs.count x = (cs.take row ++ cs.drop (row + count)).count x +
      ((cs.drop row).take count).count x := by
  conv_lhs => rw [← List.take_append_drop row cs]
  rw [List.count_append, List.count_append]
  conv_lhs => rw [← List.take_append_drop count (cs.drop row),
    List.count_append, List.drop_drop]
  omega

/-- `removeRows` on a live node preserves the strict forest
unconditionally. -/
theorem strict_forest_removeRows (h : RHeap) (nodes : List Nat)
    (self row count : Nat) (hsf : StrictForest h nodes)
    (hself : self ∈ nodes) :
    StrictForest (removeRowsH h self row count) nodes := by
  obtain ⟨cl, un, ac⟩ := hsf
  have hkeep_sub : ∀ x, x ∈ (h.childs self).take row ++
      (h.childs self).drop (row + count) → x ∈ h.childs self := by
    intro x hx
    rcases List.mem_append.mp hx with hx | hx
    · exact List.mem_of_mem_take hx
    · exact List.mem_of_mem_drop hx
  have hrem_sub : ∀ x, x ∈ ((h.childs self).drop row).take count →
      x ∈ h.childs self :=
    fun x hx => List.mem_of_mem_drop (List.mem_of_mem_take hx)
  refine ⟨?_, ?_, ?_⟩
  · intro q hq x hx
    rw [removeRowsH_childs] at hx
    by_cases hqs : q = self
    · rw [if_pos hqs] at hx
      subst hqs
      exact cl q hq x (hkeep_sub x hx)
    · rw [if_neg hqs] at hx
      exact cl q hq x hx
  · intro n hn
    by_cases hnrem : n ∈ ((h.childs self).drop row).take count
    · have hncs : n ∈ h.childs self := hrem_sub n hnrem
      have hps : h.parentOf n = some self ∧
          (h.childs self).count n = 1 := by
        cases hpo : h.parentOf n with
        | none => exact absurd hncs ((un n hn).1 hpo self hself)
        | some p2 =>
          obtain ⟨hp2, hcnt, huni⟩ := (un n hn).2 p2 hpo
          by_cases hp2s : p2 = self
          · subst hp2s
            exact ⟨rfl, hcnt⟩
          · exact absurd hncs
              (huni self hself (fun hss => hp2s hss.symm))
      obtain ⟨hpar_self, hcnt1⟩ := hps
      have hnkeep : n ∉ (h.childs self).take row ++
          (h.childs self).drop (row + count) := by
        intro hk
        have h1 := List.one_le_count_iff.mpr hk
        have h2 := List.one_le_count_iff.mpr hnrem
        have h3 := removeRows_count_split (h.childs self) row count n
        omega
      refine ⟨?_, ?_⟩
      · intro _ q hq
        rw [removeRowsH_childs]
        by_cases hqs : q = self
        · rw [if_pos hqs]
          exact hnkeep
        · rw [if_neg hqs]
          obtain ⟨_, _, huni⟩ := (un n hn).2 self hpar_self
          exact huni q hq hqs
      · intro p2 hp2
        rw [removeRowsH_parentOf, if_pos hnrem] at hp2
        exact Option.noConfusion hp2
    · have hpn2 : (removeRowsH h self row count).parentOf n =
          h.parentOf n := by
        rw [removeRowsH_parentOf, if_neg hnrem]
      refine ⟨?_, ?_⟩
      · intro h0 q hq
        rw [hpn2] at h0
        rw [removeRowsH_childs]
        by_cases hqs : q = self
        · rw [if_pos hqs]
          intro hk
          exact (un n hn).1 h0 self hself (hkeep_sub n hk)
        · rw [if_neg hqs]
          exact (un n hn).1 h0 q hq
      · intro p2 hp2
        rw [hpn2] at hp2
        obtain ⟨hp2n, hcnt, huni⟩ := (un n hn).2 p2 hp2
        refine ⟨hp2n, ?_, ?_⟩
        · rw [removeRowsH_childs]
          by_cases hp2s : p2 = self
          · rw [if_pos hp2s]
            have hremc : (((h.childs self).drop row).take count).count n
                = 0 := List.count_eq_zero.mpr hnrem
            have h3 := removeRows_count_split (h.childs self) row count n
            rw [hp2s] at hcnt
            omega
          · rw [if_neg hp2s]
            exact hcnt
        · intro q hq hqp2
          rw [removeRowsH_childs]
          by_cases hqs : q = self
          · rw [if_pos hqs]
            intro hk
            exact huni self hself (hqs ▸ hqp2) (hkeep_sub n hk)
          · rw [if_neg hqs]
            exact huni q hq hqp2
  · intro n hr
    refine ac n (reaches_mono h (removeRowsH h self row count) ?_ n n hr)
    intro q x hx
    rw [removeRowsH_childs] at hx
    by_cases hqs : q = self
    · rw [if_pos hqs] at hx
      rw [hqs]
      exact hkeep_sub x hx
    · rw [if_neg hqs] at hx
      exact hx

/-- The child list of `self` after `appendChild`. -/
theorem appendChildH_childs_self (h : RHeap) (self child : Nat) :
    (appendChildH h self child).childs self =
      h.childs self ++ [child] := by
  simp [appendChildH]

/-- The child list of `self` after `insertChild`. -/
theorem insertChildH_childs_self (h : RHeap) (row self child : Nat) :
    (insertChildH h row self child).childs self =
      pyInsert (h.childs self) row child := by
  simp [insertChildH]

/-- C8 (amended): `removeRows` on a live node always preserves the
strict-forest invariant, and `appendChild`/`insertChild` preserve it
when the attached child is a live detached root that does not reach its
new parent and differs from it; without those preconditions the
unqualified claim fails, since `appendChild` never detaches the child
first and `appendChild(node, node)` creates a cycle. -/
theorem repotree_mutations_forest_spec :
    (∀ (h : RHeap) (nodes : List Nat) (self child : Nat),
      StrictForest h nodes → self ∈ nodes → child ∈ nodes →
      (∀ q ∈ nodes, child ∉ h.childs q) → h.parentOf child = none →
      ¬ Reaches h child self → child ≠ self →
      StrictForest (appendChildH h self child) nodes) ∧
    (∀ (h : RHeap) (nodes : List Nat) (row self child : Nat),
      StrictForest h nodes → self ∈ nodes → child ∈ nodes →
      (∀ q ∈ nodes, child ∉ h.childs q) → h.parentOf child = none →
      ¬ Reaches h child self → child ≠ self →
      StrictForest (insertChildH h row self child) nodes) ∧
    (∀ (h : RHeap) (nodes : List Nat) (self row count : Nat),
      StrictForest h nodes → self ∈ nodes →
      StrictForest (removeRowsH h self row count) nodes) := by
  refine ⟨?_, ?_, ?_⟩
  · intro h nodes self child hsf hs hc hdet hpn hnr hne
    refine strict_forest_add_child h (appendChildH h self child) self child
      nodes ?_ ?_ ?_ (fun n => rfl) hsf hs hc hdet hpn hnr hne
    · intro x
      rw [appendChildH_childs_self]
      simp
    · intro x
      rw [appendChildH_childs_self, List.count_append,
        List.count_singleton]
      by_cases hx : x = child
      · simp [hx]
      · simp [hx, Ne.symm hx]
    · intro q hq
      simp [appendChildH, hq]
  · intro h nodes row self child hsf hs hc hdet hpn hnr hne
    refine strict_forest_add_child h (insertChildH h row self child) self
      child nodes ?_ ?_ ?_ (fun n => rfl) hsf hs hc hdet hpn hnr hne
    · intro x
      rw [insertChildH_childs_self, pyInsert_mem]
    · intro x
      rw [insertChildH_childs_self, pyInsert_count]
    · intro q hq
      simp [insertChildH, hq]
  · intro h nodes self row count hsf hs
    exact strict_forest_removeRows h nodes self row count hsf hs

/-- C8 counterexample: on a single detached node, `appendChild(node,
node)` makes the node its own child, so one mutation from a strict
forest yields a cyclic heap and the unqualified invariant claim
fails. -/
theorem appendChild_self_cycle_counterexample :
    StrictForest hExample [0] ∧
    ¬ StrictForest (appendChildH hExample 0 0) [0] := by
  refine ⟨hExample_forest [0], ?_⟩
  intro hsf
  exact hsf.2.2 0 (Reaches.step (by simp [appendChildH, hExample]))

/-- C8 witness: the amended theorem applied to concrete heaps — a
detached node appended, inserted and removed on the childless example
heap. -/
theorem repotree_mutations_forest_spec_witness :
    StrictForest (appendChildH hExample 0 1) [0, 1] ∧
    StrictForest (insertChildH hExample 0 0 1) [0, 1] ∧
    StrictForest (removeRowsH hExample 0 0 1) [0] :=
  ⟨repotree_mutations_forest_spec.1 hExample [0, 1] 0 1
      (hExample_forest [0, 1]) (by decide) (by decide)
      (fun q hq => List.not_mem_nil 1) rfl
      (fun hr => reaches_no_edges hExample (fun q => rfl) 1 0 hr)
      (by decide),
   repotree_mutations_forest_spec.2.1 hExample [0, 1] 0 0 1
      (hExample_forest [0, 1]) (by decide) (by decide)
      (fun q hq => List.not_mem_nil 1) rfl
      (fun hr => reaches_no_edges hExample (fun q => rfl) 1 0 hr)
      (by decide),
   repotree_mutations_forest_spec.2.2 hExample [0] 0 0 1
      (hExample_forest [0]) (by decide)⟩

/-! ### C2: registry dump/undump round trip -/

/-- A hex digit decodes to its value. -/
theorem hexVal?_hexDigit (n : Nat) (h : n < 16) :
    hexVal? (hexDigit n) = some n := by
  interval_cases n <;> decide

/-- `node.bin` inverts `node.hex` on byte strings. -/
theorem nodeBin_nodeHex (bs : List Nat) (h : bytesOkB bs = true) :
    nodeBin (nodeHex bs).data = some bs := by
  induction bs with
  | nil => rfl
  | cons b bs ih =>
    have hb : b < 256 := by
      have := (List.all_eq_true.mp h) b (List.mem_cons_self b bs)
      simpa using this
    have htail : bytesOkB bs = true :=
      List.all_eq_true.mpr (fun x hx =>
        List.all_eq_true.mp h x (List.mem_cons_of_mem b hx))
    show nodeBin ((b :: bs).flatMap byteHex) = some (b :: bs)
    rw [List.flatMap_cons]
    show nodeBin (hexDigit (b / 16) :: hexDigit (b % 16) ::
      bs.flatMap byteHex) = some (b :: bs)
    rw [nodeBin]
    rw [hexVal?_hexDigit (b / 16) (by omega),
      hexVal?_hexDigit (b % 16) (by omega)]
    have ih2 : nodeBin (bs.flatMap byteHex) = some bs := ih htail
    rw [ih2]
    have hbeq : 16 * (b / 16) + b % 16 = b := by omega
    show some ((16 * (b / 16) + b % 16) :: bs) = some (b :: bs)
    rw [hbeq]

/-- A dumped node is its start element followed by its body. -/
theorem dumpNode_decomp (n : RNode) :
    dumpNode n = XEvent.start (headTag n) (headAttrs n) :: bodyEvents n := by
  cases n <;> rfl

/-- A dumped body is never empty (it closes with an end element). -/
theorem bodyEvents_length_pos (n : RNode) : 1 ≤ (bodyEvents n).length := by
  cases n <;> simp [bodyEvents]

/-- The `root` attribute of a dumped repo-like item. -/
theorem repoAttrs_root (r s : String) (bn : List Nat) (sp : String) :
    dictGet? (repoAttrs r s bn sp) "root" = some r := by
  simp [repoAttrs, dictGet?]

/-- The `shortname` attribute of a dumped repo-like item. -/
theorem repoAttrs_shortname (r s : String) (bn : List Nat) (sp : String) :
    dictGet? (repoAttrs r s bn sp) "shortname" = some s := by
  simp [repoAttrs, dictGet?]

/-- The `basenode` attribute of a dumped repo-like item. -/
theorem repoAttrs_basenode (r s : String) (bn : List Nat) (sp : String) :
    dictGet? (repoAttrs r s bn sp) "basenode" = some (nodeHex bn) := by
  simp [repoAttrs, dictGet?]

/-- The `sharedpath` attribute is present only when non-empty. -/
theorem repoAttrs_sharedpath (r s : String) (bn : List Nat) (sp : String) :
    dictGet? (repoAttrs r s bn sp) "sharedpath" =
      if sp = "" then none else some sp := by
  by_cases hsp : sp = "" <;> simp [repoAttrs, dictGet?, hsp]

/-- Dumped repo-like items carry no `repotype` attribute. -/
theorem repoAttrs_repotype (r s : String) (bn : List Nat) (sp : String) :
    dictGet? (repoAttrs r s bn sp) "repotype" = none := by
  by_cases hsp : sp = "" <;> simp [repoAttrs, dictGet?, hsp]

mutual

/-- Undumping the dumped children of a tree item or group rebuilds the
canonicalized children and stops at the enclosing end element. -/
theorem undump_dump_top : ∀ (cs : List RNode) (fuel : Nat) (tg : String)
    (rest : List XEvent) (acc : List RNode),
    WFTopB cs = true → (dumpChilds cs).length < fuel →
    undumpChildsF fuel false (dumpChilds cs ++ XEvent.finish tg :: rest)
      acc = some (acc ++ canonChilds cs, rest)
  | [], fuel, tg, rest, acc => by
    intro _ hlen
    cases fuel with
    | zero => simp [dumpChilds] at hlen
    | succ f => simp [dumpChilds, canonChilds, undumpChildsF]
  | c :: cs, fuel, tg, rest, acc => by
    intro hwf hlen
    simp only [WFTopB, Bool.and_eq_true] at hwf
    obtain ⟨⟨hns, hwfc⟩, hwfcs⟩ := hwf
    have hlen1 : (dumpChilds (c :: cs)).length =
        1 + (bodyEvents c).length + (dumpChilds cs).length := by
      rw [dumpChilds, dumpNode_decomp c]
      simp [List.length_append]
      omega
    have hbp := bodyEvents_length_pos c
    cases fuel with
    | zero => omega
    | succ f =>
      cases f with
      | zero => omega
      | succ f2 =>
        have hstream : dumpChilds (c :: cs) ++ XEvent.finish tg :: rest =
            XEvent.start (headTag c) (headAttrs c) ::
              (bodyEvents c ++
                (dumpChilds cs ++ XEvent.finish tg :: rest)) := by
          rw [dumpChilds, dumpNode_decomp c]
          simp [List.append_assoc]
        rw [hstream]
        simp only [undumpChildsF]
        rw [undump_dump_item c f2
          (dumpChilds cs ++ XEvent.finish tg :: rest) hwfc hns (by omega)]
        show undumpChildsF (f2 + 1) false
          (dumpChilds cs ++ XEvent.finish tg :: rest)
          (acc ++ [canonNode c]) = _
        rw [undump_dump_top cs (f2 + 1) tg rest (acc ++ [canonNode c])
          hwfcs (by omega)]
        simp [canonChilds]

/-- Undumping the dumped children of a repo-like item rebuilds the
canonicalized children and stops at the enclosing end element. -/
theorem undump_dump_sub : ∀ (cs : List RNode) (fuel : Nat) (tg : String)
    (rest : List XEvent) (acc : List RNode),
    WFSubB cs = true → (dumpChilds cs).length < fuel →
    undumpChildsF fuel true (dumpChilds cs ++ XEvent.finish tg :: rest)
      acc = some (acc ++ canonChilds cs, rest)
  | [], fuel, tg, rest, acc => by
    intro _ hlen
    cases fuel with
    | zero => simp [dumpChilds] at hlen
    | succ f => simp [dumpChilds, canonChilds, undumpChildsF]
  | c :: cs, fuel, tg, rest, acc => by
    intro hwf hlen
    simp only [WFSubB, Bool.and_eq_true] at hwf
    obtain ⟨⟨hns, hwfc⟩, hwfcs⟩ := hwf
    have hlen1 : (dumpChilds (c :: cs)).length =
        1 + (bodyEvents c).length + (dumpChilds cs).length := by
      rw [dumpChilds, dumpNode_decomp c]
      simp [List.length_append]
      omega
    have hbp := bodyEvents_length_pos c
    cases fuel with
    | zero => omega
    | succ f =>
      cases f with
      | zero => omega
      | succ f2 =>
        have hstream : dumpChilds (c :: cs) ++ XEvent.finish tg :: rest =
            XEvent.start (headTag c) (headAttrs c) ::
              (bodyEvents c ++
                (dumpChilds cs ++ XEvent.finish tg :: rest)) := by
          rw [dumpChilds, dumpNode_decomp c]
          simp [List.append_assoc]
        rw [hstream]
        simp only [undumpChildsF]
        rw [undump_dump_item_sub c f2
          (dumpChilds cs ++ XEvent.finish tg :: rest) hwfc hns (by omega)]
        show undumpChildsF (f2 + 1) true
          (dumpChilds cs ++ XEvent.finish tg :: rest)
          (acc ++ [canonNode c]) = _
        rw [undump_dump_sub cs (f2 + 1) tg rest (acc ++ [canonNode c])
          hwfcs (by omega)]
        simp [canonChilds]

/-- Undumping a dumped tree item, group or repo-like top-level node via
the `_xmlUndumpMap` rebuilds its canonicalization. -/
theorem undump_dump_item : ∀ (n : RNode) (fuel : Nat)
    (rest : List XEvent),
    WFNodeB n = true → nonSubKindB n = true →
    (bodyEvents n).length ≤ fuel →
    undumpItemF (fuel + 1) false (headTag n) (headAttrs n)
      (bodyEvents n ++ rest) = some (some (canonNode n), rest)
  | .treeitem cs, fuel, rest => by
    intro hwf _ hlen
    simp only [WFNodeB] at hwf
    have hlen2 : (dumpChilds cs).length < fuel := by
      have h1 : (bodyEvents (RNode.treeitem cs)).length =
          (dumpChilds cs).length + 1 := by
        simp [bodyEvents]
      omega
    simp only [headTag, headAttrs, bodyEvents, undumpItemF,
      List.append_assoc, List.singleton_append]
    rw [if_pos trivial]
    rw [undump_dump_top cs fuel "treeitem" rest [] hwf hlen2]
    simp [canonNode]
  | .group nm cs, fuel, rest => by
    intro hwf _ hlen
    simp only [WFNodeB] at hwf
    have hlen2 : (dumpChilds cs).length < fuel := by
      have h1 : (bodyEvents (RNode.group nm cs)).length =
          (dumpChilds cs).length + 1 := by
        simp [bodyEvents]
      omega
    simp only [headTag, headAttrs, bodyEvents, undumpItemF,
      List.append_assoc, List.singleton_append]
    rw [if_neg (by decide), if_pos trivial]
    rw [undump_dump_top cs fuel "group" rest [] hwf hlen2]
    simp [canonNode, dictGet?]
  | .allgroup nm cs, fuel, rest => by
    intro hwf _ hlen
    simp only [WFNodeB, Bool.and_eq_true] at hwf
    obtain ⟨hnm, hwfcs⟩ := hwf
    have hnm2 : nm ≠ "" := by simpa using hnm
    have hlen2 : (dumpChilds cs).length < fuel := by
      have h1 : (bodyEvents (RNode.allgroup nm cs)).length =
          (dumpChilds cs).length + 1 := by
        simp [bodyEvents]
      omega
    simp only [headTag, headAttrs, bodyEvents, undumpItemF,
      List.append_assoc, List.singleton_append]
    rw [if_neg (by decide), if_neg (by decide), if_pos trivial]
    rw [undump_dump_top cs fuel "allgroup" rest [] hwfcs hlen2]
    simp [canonNode, dictGet?, hnm2]
  | .repo root sn sp bn cs, fuel, rest => by
    intro hwf _ hlen
    simp only [WFNodeB, Bool.and_eq_true] at hwf
    obtain ⟨hbn, hwfcs⟩ := hwf
    have hlen2 : (dumpChilds cs).length < fuel := by
      have h1 : (bodyEvents (RNode.repo root sn sp bn cs)).length =
          (dumpChilds cs).length + 1 := by
        simp [bodyEvents]
      omega
    simp only [headTag, headAttrs, bodyEvents, undumpItemF,
      List.append_assoc, List.singleton_append]
    rw [if_neg (by decide), if_neg (by decide), if_neg (by decide),
      if_pos trivial]
    simp only [repoAttrs_basenode, Option.getD_some,
      nodeBin_nodeHex bn hbn]
    rw [undump_dump_sub cs fuel "repo" rest [] hwfcs hlen2]
    simp only [repoAttrs_root, repoAttrs_shortname, repoAttrs_sharedpath,
      Option.getD_some, canonNode]
    by_cases hsp : sp = ""
    · simp [hsp]
    · simp [hsp]
  | .standalonesub root sn sp bn cs, fuel, rest => by
    intro hwf _ hlen
    simp only [WFNodeB, Bool.and_eq_true] at hwf
    obtain ⟨hbn, hwfcs⟩ := hwf
    have hlen2 : (dumpChilds cs).length < fuel := by
      have h1 : (bodyEvents
          (RNode.standalonesub root sn sp bn cs)).length =
          (dumpChilds cs).length + 1 := by
        simp [bodyEvents]
      omega
    simp only [headTag, headAttrs, bodyEvents, undumpItemF,
      List.append_assoc, List.singleton_append]
    rw [if_neg (by decide), if_neg (by decide), if_neg (by decide),
      if_neg (by decide), if_pos trivial]
    simp only [repoAttrs_basenode, Option.getD_some,
      nodeBin_nodeHex bn hbn]
    rw [undump_dump_sub cs fuel "subrepo" rest [] hwfcs hlen2]
    simp only [repoAttrs_root, repoAttrs_shortname, repoAttrs_sharedpath,
      Option.getD_some, canonNode]
    by_cases hsp : sp = ""
    · simp [hsp]
    · simp [hsp]
  | .subrepo root sn sp bn cs, fuel, rest => by
    intro _ hns _
    simp [nonSubKindB] at hns
  | .aliensub root t cs, fuel, rest => by
    intro _ hns _
    simp [nonSubKindB] at hns

/-- Undumping a dumped subrepo or alien subrepo via
`_undumpSubrepoItem` rebuilds its canonicalization. -/
theorem undump_dump_item_sub : ∀ (n : RNode) (fuel : Nat)
    (rest : List XEvent),
    WFNodeB n = true → subKindB n = true →
    (bodyEvents n).length ≤ fuel →
    undumpItemF (fuel + 1) true (headTag n) (headAttrs n)
      (bodyEvents n ++ rest) = some (some (canonNode n), rest)
  | .subrepo root sn sp bn cs, fuel, rest => by
    intro hwf _ hlen
    simp only [WFNodeB, Bool.and_eq_true] at hwf
    obtain ⟨hbn, hwfcs⟩ := hwf
    have hlen2 : (dumpChilds cs).length < fuel := by
      have h1 : (bodyEvents (RNode.subrepo root sn sp bn cs)).length =
          (dumpChilds cs).length + 1 := by
        simp [bodyEvents]
      omega
    simp only [headTag, headAttrs, bodyEvents, undumpItemF,
      List.append_assoc, List.singleton_append]
    simp only [repoAttrs_repotype, Option.getD_none]
    simp only [if_true, eq_self_iff_true]
    simp only [repoAttrs_basenode, Option.getD_some,
      nodeBin_nodeHex bn hbn]
    rw [undump_dump_sub cs fuel "subrepo" rest [] hwfcs hlen2]
    simp only [repoAttrs_root, repoAttrs_shortname, repoAttrs_sharedpath,
      Option.getD_some, canonNode]
    by_cases hsp : sp = ""
    · simp [hsp]
    · simp [hsp]
  | .aliensub root t cs, fuel, rest => by
    intro hwf _ hlen
    simp only [WFNodeB, Bool.and_eq_true] at hwf
    obtain ⟨⟨ht1, ht2⟩, hcs⟩ := hwf
    have ht1b : t ≠ "" := by simpa using ht1
    have ht2b : t ≠ "hg" := by simpa using ht2
    have hcs2 : cs = [] := by
      cases cs with
      | nil => rfl
      | cons d ds => simp [List.isEmpty] at hcs
    subst hcs2
    simp only [headTag, headAttrs, bodyEvents, undumpItemF,
      List.singleton_append]
    have hrt : dictGet? [("root", root), ("repotype", t)] "repotype"
        = some t := by
      simp [dictGet?]
    simp only [hrt, Option.getD_some]
    rw [if_neg ht1b]
    rw [if_neg ht2b]
    cases fuel with
    | zero => simp [bodyEvents] at hlen
    | succ f =>
      simp only [skipElementF]
      have hroot : dictGet? [("root", root), ("repotype", t)] "root"
          = some root := by
        simp [dictGet?]
      simp [hroot, canonNode, canonChilds]
  | .treeitem cs, fuel, rest => by
    intro _ hns _
    simp [subKindB] at hns
  | .repo root sn sp bn cs, fuel, rest => by
    intro _ hns _
    simp [subKindB] at hns
  | .standalonesub root sn sp bn cs, fuel, rest => by
    intro _ hns _
    simp [subKindB] at hns
  | .group nm cs, fuel, rest => by
    intro _ hns _
    simp [subKindB] at hns
  | .allgroup nm cs, fuel, rest => by
    intro _ hns _
    simp [subKindB] at hns

end

mutual

/-- The canonicalized tree is observably equal to the original. -/
theorem obsEq_canon : ∀ n : RNode, obsEqB (canonNode n) n = true
  | .treeitem cs => by
    have hch := obsEq_canon_childs cs
    simp [canonNode, obsEqB, hch]
  | .repo root sn sp bn cs => by
    have hch := obsEq_canon_childs cs
    by_cases hsn : sn = "" <;> simp [canonNode, obsEqB, hch, hsn]
  | .standalonesub root sn sp bn cs => by
    have hch := obsEq_canon_childs cs
    by_cases hsn : sn = "" <;> simp [canonNode, obsEqB, hch, hsn]
  | .subrepo root sn sp bn cs => by
    have hch := obsEq_canon_childs cs
    by_cases hsn : sn = "" <;> simp [canonNode, obsEqB, hch, hsn]
  | .aliensub root t cs => by
    have hch := obsEq_canon_childs cs
    simp [canonNode, obsEqB, hch]
  | .group nm cs => by
    have hch := obsEq_canon_childs cs
    simp [canonNode, obsEqB, hch]
  | .allgroup nm cs => by
    have hch := obsEq_canon_childs cs
    simp [canonNode, obsEqB, hch]

/-- `obsEq_canon`, child by child. -/
theorem obsEq_canon_childs :
    ∀ cs : List RNode, obsEqChilds (canonChilds cs) cs = true
  | [] => rfl
  | c :: cs => by
    have h1 := obsEq_canon c
    have h2 := obsEq_canon_childs cs
    simp [canonChilds, obsEqChilds, h1, h2]

end

/-- `undumpObject` of a dumped well-formed top-level node rebuilds its
canonicalization. -/
theorem undumpObjectE_dump (n : RNode) (h1 : WFNodeB n = true)
    (h2 : nonSubKindB n = true) :
    undumpObjectE (dumpNode n) = some (canonNode n) := by
  have hd := dumpNode_decomp n
  have hitem := undump_dump_item n ((bodyEvents n).length + 1) []
    h1 h2 (by omega)
  rw [List.append_nil] at hitem
  simp only [undumpObjectE, undumpObjectF, hd, List.length_cons, hitem]

/-- C2: serializing a well-formed registry forest (the shapes the repo
registry stores: groups and repos under the tree item, subrepos under
repo-like items, childless alien subrepos with a non-`hg` repotype,
non-empty `allgroup` names, byte-string base nodes) with
`dumpObject` and deserializing it with `undumpObject` rebuilds the
forest: the same node classes in the same order with the same
parent-child relationships, and the same `root`, computed `shortname`,
`basenode`, `sharedpath`, group `name` and `repotype` on every node.
The reloaded tree is the canonicalization of the original, which only
replaces a stored empty short name by the computed `shortname()` that
was written to the registry and is observably equal to the original. -/
theorem registry_roundtrip_spec :
    ∀ n : RNode, WFNodeB n = true → nonSubKindB n = true →
      undumpObjectE (dumpNode n) = some (canonNode n) ∧
      obsEqB (canonNode n) n = true :=
  fun n h1 h2 => ⟨undumpObjectE_dump n h1 h2, obsEq_canon n⟩

/-- C2 witness: the round trip on a concrete registry with two groups,
a repo, subrepos of both kinds and a standalone subrepo. -/
theorem registry_roundtrip_spec_witness :
    undumpObjectE (dumpNode exampleRegistry)
        = some (canonNode exampleRegistry) ∧
      obsEqB (canonNode exampleRegistry) exampleRegistry = true :=
  registry_roundtrip_spec exampleRegistry (by decide) (by decide)
